import Mathlib

/-!
Verification of the SSH-config block engine of the `rp` repository.

Documents are modelled as ordered lists of lines, each line a list of
characters (this is exactly what Python's `readlines` hands to the code:
every function under scrutiny computes on such a list and never touches
the file system in between).  All definitions are direct translations of
the Python source in `src/rp/ssh_config.py`, `src/rp/core/ssh_manager.py`
and `src/rp/core/models.py`.
-/

namespace RP

abbrev Line := List Char
abbrev Document := List Line

/-- Python whitespace (`str.isspace`, `re` class `\s`, `str.split()`,
`str.strip()`): the six ASCII whitespace characters plus the Unicode
whitespace code points. -/
def isPySpace (c : Char) : Bool :=
  c = ' ' || c = '\t' || c = '\n' || c = '\r' || c = '\x0b' || c = '\x0c' ||
  c = '\x1c' || c = '\x1d' || c = '\x1e' || c = '\x1f' || c = '\u0085' || c = '\u00a0' ||
  c = '\u1680' || ('\u2000' ≤ c && c ≤ '\u200a') || c = '\u2028' || c = '\u2029' ||
  c = '\u202f' || c = '\u205f' || c = '\u3000'

/-- Python `str.lstrip()`. -/
def pyLStrip (l : Line) : Line := l.dropWhile isPySpace

/-- Python `str.strip()`. -/
def pyStrip (l : Line) : Line :=
  ((l.dropWhile isPySpace).reverse.dropWhile isPySpace).reverse

/-- Worker for `pySplit` (accumulates the current word reversed). -/
def pySplitGo : List Char → List Char → List (List Char)
  | acc, [] => if acc = [] then [] else [acc.reverse]
  | acc, c :: cs =>
    if isPySpace c then
      if acc = [] then pySplitGo [] cs else acc.reverse :: pySplitGo [] cs
    else pySplitGo (c :: acc) cs

/-- Python `str.split()` with no separator: split on runs of whitespace,
discarding empty tokens. -/
def pySplit (l : List Char) : List (List Char) := pySplitGo [] l

/-- `startsW p l` is Python `l.startswith(p)`. -/
def startsW (p l : List Char) : Bool := decide (l.take p.length = p)

/-- Python `p in l` (substring containment). -/
def containsSub (p : List Char) : Line → Bool
  | [] => startsW p []
  | c :: cs => startsW p (c :: cs) || containsSub p cs

/-- Drop one trailing newline, the way the regex anchor `$` (without
`re.MULTILINE`) ignores a single final `'\n'`. -/
def chomp (l : List Char) : List Char :=
  match l.getLast? with
  | some c => if c = '\n' then l.dropLast else l
  | none => l

/-- The literal token `Host` of the block-opening grammar. -/
def hostKw : List Char := ("Host".toList)

/-- Matching `\s+(.+)$` (greedy, with backtracking) against `r`, as
`re.match` resolves it: the group is the longest tail of `chomp r` that
contains no newline and starts after at least one whitespace character;
the whitespace part `\s+` otherwise grabs as much as it can. -/
def matchTail (r : List Char) : Option (List Char) :=
  let r' := chomp r
  let w := (r.takeWhile isPySpace).length
  let i := min w (r'.length - 1)
  if 1 ≤ i && (r'.drop i).all (fun c => c != '\n') then some (r'.drop i) else none

/-- Python `re.match(r"^\s*Host\s+(.+)$", line)`, returning `group(1)`.
`\s*` is forced to consume the maximal whitespace prefix (the next
character must be the non-whitespace `H`). -/
def matchHostLine (l : Line) : Option (List Char) :=
  let rest := l.dropWhile isPySpace
  if startsW hostKw rest then matchTail (rest.drop 4) else none

/-- Python `re.match(r"^\s*Host\s+", line)` as a Bool: the pattern used to
find the end of a block. -/
def breakMatch (l : Line) : Bool :=
  let rest := l.dropWhile isPySpace
  startsW hostKw rest &&
    (match (rest.drop 4).head? with
     | some c => isPySpace c
     | none => false)

/-- Modelled from the spec: `MARKER_PREFIX` lives in `rp/config.py`, which
is not under `src/`.  Its value is pinned by the marker line that
`SSHConfig.to_ssh_block` emits (`"    # rp:managed alias=..."` in
`src/rp/core/models.py`) and by the spec's reserved marker prefix. -/
def rpMarker : List Char := ("# rp:managed".toList)

/-- `lines[j].lstrip().startswith(MARKER_PREFIX)`. -/
def markerCond (l : Line) : Bool := startsW rpMarker (l.dropWhile isPySpace)

/-- The block descriptor dict produced by both parsers: keys `start`,
`end` (exclusive, here `stop`), `hosts`, `managed`, `marker_index`
(`-1` when no marker line was found). -/
structure HostBlock where
  start : Nat
  stop : Nat
  hosts : List (List Char)
  managed : Bool
  marker_index : Int
deriving DecidableEq, Repr

/-- Build a block descriptor from its start, (exclusive) end, the raw
`group(1)` text of the opening line and the optional marker index;
`hosts = group(1).strip().split()`. -/
def mkBlock (st stp : Nat) (g : List Char) (mk : Option Nat) : HostBlock :=
  { start := st, stop := stp, hosts := pySplit (pyStrip g),
    managed := mk.isSome,
    marker_index := match mk with | some j => (j : Int) | none => -1 }

/-- First index `j ≥ base` (within the given body lines) whose line
satisfies the marker condition — the `for j in range(start+1, end)` scan
with `break` on the first hit. -/
def firstMarkerIdx : List Line → Nat → Option Nat
  | [], _ => none
  | l :: ls, j => if markerCond l then some j else firstMarkerIdx ls (j + 1)

/-- `lines[i]` (total; the parsers only index in bounds). -/
def nthLine (lines : Document) (i : Nat) : Line := (lines.get? i).getD []

namespace ssh_config

/-- The `while i < len(lines)` loop of `parse_ssh_blocks`
(`src/rp/ssh_config.py`).  `fuel` bounds the number of iterations; the
index `i` strictly increases, so `lines.length + 1` iterations always
suffice.  On an opening line the inner
`while i < len(lines) and not re.match(r"^\s*Host\s+", lines[i])` loop is
the `takeWhile`; the block ends at the first break line (or EOF). -/
def parse_ssh_blocks_go (lines : Document) : Nat → Nat → List HostBlock
  | _, 0 => []
  | i, fuel + 1 =>
    if i < lines.length then
      match matchHostLine (nthLine lines i) with
      | some g =>
        let body := (lines.drop (i + 1)).takeWhile (fun l => ! breakMatch l)
        mkBlock i (i + 1 + body.length) g (firstMarkerIdx body (i + 1)) ::
          parse_ssh_blocks_go lines (i + 1 + body.length) fuel
      | none => parse_ssh_blocks_go lines (i + 1) fuel
    else []

/-- `parse_ssh_blocks` of the legacy module `src/rp/ssh_config.py`. -/
def parse_ssh_blocks (lines : Document) : List HostBlock :=
  parse_ssh_blocks_go lines 0 (lines.length + 1)

end ssh_config

namespace SSHManager

/-- The `while i < len(lines)` loop of `SSHManager._parse_ssh_blocks`
(`src/rp/core/ssh_manager.py`); the algorithm is the same loop as the
legacy module's. -/
def parse_ssh_blocks_go (lines : Document) : Nat → Nat → List HostBlock
  | _, 0 => []
  | i, fuel + 1 =>
    if i < lines.length then
      match matchHostLine (nthLine lines i) with
      | some g =>
        let body := (lines.drop (i + 1)).takeWhile (fun l => ! breakMatch l)
        mkBlock i (i + 1 + body.length) g (firstMarkerIdx body (i + 1)) ::
          parse_ssh_blocks_go lines (i + 1 + body.length) fuel
      | none => parse_ssh_blocks_go lines (i + 1) fuel
    else []

/-- `SSHManager._parse_ssh_blocks` of `src/rp/core/ssh_manager.py`. -/
def parse_ssh_blocks (lines : Document) : List HostBlock :=
  parse_ssh_blocks_go lines 0 (lines.length + 1)

end SSHManager

/-- Decimal digits of `n` (worker with fuel; `fuel ≥ n + 1` suffices). -/
def natToCharsGo : Nat → Nat → List Char
  | 0, _ => []
  | fuel + 1, n =>
    if n < 10 then [Char.ofNat (48 + n)]
    else natToCharsGo fuel (n / 10) ++ [Char.ofNat (48 + n % 10)]

/-- Decimal representation of a natural number, as Python `str`. -/
def natToChars (n : Nat) : List Char := natToCharsGo (n + 1) n

/-- Python `str(i)` for an `int`: optional minus sign, then digits. -/
def intToChars : Int → List Char
  | Int.ofNat n => natToChars n
  | Int.negSucc m => '-' :: natToChars (m + 1)

/-- The `SSHConfig` pydantic model of `src/rp/core/models.py` (the string
fields as character lists, `port` an integer, `identity_file` optional).
The Lean structure is the raw field record; pydantic's constructor
validation is modelled separately by `SSHConfig.port_valid` and applied
where the source calls `SSHConfig(...)` on unchecked data
(`get_host_config`).  A record handed in by a Python caller always
satisfies the bound already, so theorems quantifying over every
`SSHConfig` cover all Python-constructible values. -/
structure SSHConfig where
  host_alias : List Char
  pod_id : List Char
  hostname : List Char
  port : Int
  user : List Char
  identity_file : Option (List Char)
deriving DecidableEq, Repr

/-- Pydantic validation of the `SSHConfig` model: `port` is declared
`Field(ge=1, le=65535)` in `src/rp/core/models.py` and is the model's
only constrained field, so `SSHConfig(...)` raises `ValidationError`
exactly when the port lies outside `1..65535`. -/
def SSHConfig.port_valid (p : Int) : Bool := decide (1 ≤ p) && decide (p ≤ 65535)

/-- `SSHConfig.to_ssh_block` of `src/rp/core/models.py`: the canonical
managed block for a record.  The identity lines are emitted only when
`identity_file` is truthy (present and non-empty). -/
def SSHConfig.to_ssh_block (cfg : SSHConfig) (updated_timestamp : List Char) : Document :=
  [ ("Host ".toList) ++ cfg.host_alias ++ ['\n'],
    ("    # rp:managed alias=".toList) ++ cfg.host_alias ++ (" pod_id=".toList) ++ cfg.pod_id
      ++ (" updated=".toList) ++ updated_timestamp ++ ['\n'],
    ("    HostName ".toList) ++ cfg.hostname ++ ['\n'],
    ("    User ".toList) ++ cfg.user ++ ['\n'],
    ("    Port ".toList) ++ intToChars cfg.port ++ ['\n'] ]
  ++ (match cfg.identity_file with
      | some f =>
        if f = [] then []
        else [("    IdentitiesOnly yes\n".toList), ("    IdentityFile ".toList) ++ f ++ ['\n']]
      | none => [])
  ++ [("    ForwardAgent yes\n".toList)]

/-- The splice loop shared by `remove_host_config` and
`prune_managed_blocks`: `new_lines = []; cur = 0;
for (start, end) in ranges: new_lines += lines[cur:start]; cur = end`,
then `new_lines += lines[cur:]`. -/
def deleteRangesGo (lines : Document) : Nat → List (Nat × Nat) → Document
  | cur, [] => lines.drop cur
  | cur, (s, e) :: rs => (lines.drop cur).take (s - cur) ++ deleteRangesGo lines e rs

namespace SSHManager

/-- `SSHManager.update_host_config` (`src/rp/core/ssh_manager.py`), as the
pure document transformation between the load and the write: replace the
first block (managed or not) whose `hosts` contain the record's alias by
the fresh block, else append, with a blank separator when the last line
is non-blank. -/
def update_host_config (lines : Document) (ssh_config : SSHConfig)
    (timestamp : List Char) : Document :=
  let blocks := parse_ssh_blocks lines
  let new_block_lines := ssh_config.to_ssh_block timestamp
  match blocks.find? (fun b => decide (ssh_config.host_alias ∈ b.hosts)) with
  | some b => lines.take b.start ++ new_block_lines ++ lines.drop b.stop
  | none =>
    (match lines.getLast? with
     | some last => if pyStrip last = [] then lines else lines ++ [['\n']]
     | none => lines) ++ new_block_lines

/-- `SSHManager.remove_host_config`: the rewritten document and the
returned Bool. -/
def remove_host_config (lines : Document) (host_alias : List Char) : Document × Bool :=
  if lines = [] then (lines, false)
  else
    let blocks := parse_ssh_blocks lines
    let ranges := (blocks.filter (fun b => b.managed && decide (host_alias ∈ b.hosts))).map
      (fun b => (b.start, b.stop))
    if ranges = [] then (lines, false)
    else (deleteRangesGo lines 0 ranges, true)

/-- `SSHManager.prune_managed_blocks`: the rewritten document and the
returned count. -/
def prune_managed_blocks (lines : Document) (valid_aliases : List (List Char)) :
    Document × Nat :=
  if lines = [] then (lines, 0)
  else
    let blocks := parse_ssh_blocks lines
    let ranges := (blocks.filter
      (fun b => b.managed && ! b.hosts.any (fun h => decide (h ∈ valid_aliases)))).map
      (fun b => (b.start, b.stop))
    if ranges = [] then (lines, 0)
    else (deleteRangesGo lines 0 ranges, ranges.length)

end SSHManager

/-- The universal-newlines translation applied by reading a file in text
mode: `\r\n` and a lone `\r` both become `\n`. -/
def normalizeNL : List Char → List Char
  | [] => []
  | '\r' :: '\n' :: rest => '\n' :: normalizeNL rest
  | '\r' :: rest => '\n' :: normalizeNL rest
  | c :: rest => c :: normalizeNL rest

/-- Worker for `splitLinesRead`: accumulate the current (reversed) line;
a `\n` closes a line, keeping the terminator; a nonempty final segment
without terminator is emitted as the last line. -/
def splitLinesGo : List Char → List Char → Document
  | acc, [] => if acc = [] then [] else [acc.reverse]
  | acc, c :: cs =>
    if c = '\n' then (acc.reverse ++ ['\n']) :: splitLinesGo [] cs
    else splitLinesGo (c :: acc) cs

/-- `f.readlines()` on already newline-normalized text: split after every
`\n`, keeping the terminators. -/
def splitLinesRead (s : List Char) : Document := splitLinesGo [] s

namespace SSHManager

/-- `SSHManager._load_ssh_config_lines`, as a function of the raw file
content: text-mode reading applies the universal-newlines translation,
then `readlines` splits into terminator-keeping lines. -/
def load_ssh_config_lines (s : List Char) : Document := splitLinesRead (normalizeNL s)

/-- `SSHManager._write_ssh_config_lines`, as the content written:
`f.writelines(lines)` concatenates the lines verbatim (text-mode writing
on a POSIX system performs no translation). -/
def write_ssh_config_lines (d : Document) : List Char := d.flatten

/-- One whole `update_host_config` call at the file level: read the
current content into lines, compute the rewritten line list, write its
concatenation back. -/
def update_host_config_file (s : List Char) (ssh_config : SSHConfig)
    (timestamp : List Char) : List Char :=
  write_ssh_config_lines (update_host_config (load_ssh_config_lines s) ssh_config timestamp)

end SSHManager

/-- Start code points of the Unicode decimal-digit runs (category `Nd`).
Every decimal digit accepted by Python `int` lies in a contiguous run of
ten code points carrying the values `0`–`9`; this is the full table of
run starts of CPython's `unicodedata` (ASCII first, then Arabic-Indic,
Devanagari, ..., fullwidth, mathematical and the supplementary scripts). -/
def ndStarts : List Nat :=
  [0x30, 0x660, 0x6F0, 0x7C0, 0x966, 0x9E6, 0xA66, 0xAE6, 0xB66, 0xBE6,
   0xC66, 0xCE6, 0xD66, 0xDE6, 0xE50, 0xED0, 0xF20, 0x1040, 0x1090, 0x17E0,
   0x1810, 0x1946, 0x19D0, 0x1A80, 0x1A90, 0x1B50, 0x1BB0, 0x1C40, 0x1C50,
   0xA620, 0xA8D0, 0xA900, 0xA9D0, 0xA9F0, 0xAA50, 0xABF0, 0xFF10, 0x104A0,
   0x10D30, 0x11066, 0x110F0, 0x11136, 0x111D0, 0x112F0, 0x11450, 0x114D0,
   0x11650, 0x116C0, 0x11730, 0x118E0, 0x11950, 0x11C50, 0x11D50, 0x11DA0,
   0x16A60, 0x16AC0, 0x16B50, 0x1D7CE, 0x1D7D8, 0x1D7E2, 0x1D7EC, 0x1D7F6,
   0x1E140, 0x1E2F0, 0x1E950, 0x1FBF0]

/-- The decimal value of a Unicode digit: Python `int` accepts any
character of category `Nd`, ASCII or not (`int("٢٢") == 22`), its value
being the offset inside its run of ten. -/
def pyDigitVal (c : Char) : Option Nat :=
  (ndStarts.find? (fun s => decide (s ≤ c.toNat) && decide (c.toNat ≤ s + 9))).map
    (fun s => c.toNat - s)

/-- Worker for `pyIntParse`: decimal digits with single underscores
allowed between digits (Python ≥ 3.6 literals accepted by `int`). -/
def pyDigitsGo : Nat → List Char → Option Nat
  | acc, [] => some acc
  | acc, '_' :: c :: cs =>
    match pyDigitVal c with
    | some v => pyDigitsGo (acc * 10 + v) cs
    | none => none
  | _, ['_'] => none
  | acc, c :: cs =>
    match pyDigitVal c with
    | some v => pyDigitsGo (acc * 10 + v) cs
    | none => none

/-- Digit run accepted by Python `int` (must start with a digit). -/
def pyDigits : List Char → Option Nat
  | [] => none
  | c :: cs =>
    match pyDigitVal c with
    | some v => pyDigitsGo v cs
    | none => none

/-- Python `int(s)` on an already-stripped string, `none` on
`ValueError`: an optional ASCII sign, then Unicode decimal digits with
single underscores allowed between digits. -/
def pyIntParse : List Char → Option Int
  | '-' :: rest => (pyDigits rest).map (fun n => -(n : Int))
  | '+' :: rest => (pyDigits rest).map (fun n => (n : Int))
  | l => (pyDigits l).map (fun n => (n : Int))

/-- `re.search(r"pod_id=([^\s]+)", line)`: scan left to right for an
occurrence of the literal `pod_id=` followed by at least one
non-whitespace character; the group is the maximal non-whitespace run. -/
def rePodId : Line → Option (List Char)
  | [] => none
  | c :: cs =>
    if startsW ("pod_id=".toList) (c :: cs) then
      let tok := ((c :: cs).drop 7).takeWhile (fun ch => ! isPySpace ch)
      if tok = [] then rePodId cs else some tok
    else rePodId cs

/-- The mutable locals of the extraction loop in
`SSHManager.get_host_config`. -/
structure ReadState where
  hostname : Option (List Char)
  port : Option Int
  user : List Char
  identity_file : Option (List Char)
  pod_id : Option (List Char)
deriving DecidableEq, Repr

/-- Initial values of the extraction loop: everything unset, user
defaulted to `root`. -/
def readInit : ReadState :=
  { hostname := none, port := none, user := ("root".toList),
    identity_file := none, pod_id := none }

/-- One iteration of the `for i in range(block["start"] + 1, block["end"])`
loop of `get_host_config`: strip the raw line, then run the `elif` chain.
A `Port` value failing `int()` is suppressed (the previous value is
kept); a marker line without a `pod_id=` match leaves `pod_id` alone. -/
def readStep (st : ReadState) (raw : Line) : ReadState :=
  let line := pyStrip raw
  if startsW ("HostName ".toList) line then
    { st with hostname := some (pyStrip (line.drop 9)) }
  else if startsW ("Port ".toList) line then
    match pyIntParse (pyStrip (line.drop 5)) with
    | some v => { st with port := some v }
    | none => st
  else if startsW ("User ".toList) line then
    { st with user := pyStrip (line.drop 5) }
  else if startsW ("IdentityFile ".toList) line then
    { st with identity_file := some (pyStrip (line.drop 13)) }
  else if startsW rpMarker line && containsSub (" pod_id=".toList) line then
    match rePodId line with
    | some p => { st with pod_id := some p }
    | none => st
  else st

/-- The body lines of a block: `lines[start+1 : end]`. -/
def blockBody (lines : Document) (b : HostBlock) : Document :=
  (lines.drop (b.start + 1)).take (b.stop - (b.start + 1))

/-- The whole extraction loop of `get_host_config` over one block. -/
def extractBlock (lines : Document) (b : HostBlock) : ReadState :=
  (blockBody lines b).foldl readStep readInit

/-- The outcome of a `get_host_config` call: a normal return (`some`
record or `none`), or the uncaught pydantic `ValidationError` raised by
the `SSHConfig(...)` constructor call. -/
inductive GetHostResult where
  | ret : Option SSHConfig → GetHostResult
  | validation_error : GetHostResult
deriving DecidableEq, Repr

namespace SSHManager

/-- The `for block in blocks` loop of `get_host_config`: for each managed
block containing the alias, run the extraction; when `hostname and port
and pod_id` are all truthy, `return SSHConfig(...)` — which validates the
port against pydantic's `1..65535` bound and raises `ValidationError`
(uncaught here) when it is out of range; otherwise keep looking. -/
def get_host_config_go (lines : Document) (host_alias : List Char) :
    List HostBlock → GetHostResult
  | [] => .ret none
  | b :: bs =>
    if decide (host_alias ∈ b.hosts) && b.managed then
      let st := extractBlock lines b
      match st.hostname, st.port, st.pod_id with
      | some h, some p, some pid =>
        if h ≠ [] ∧ p ≠ 0 ∧ pid ≠ [] then
          if SSHConfig.port_valid p then
            .ret (some { host_alias := host_alias, pod_id := pid, hostname := h, port := p,
                         user := st.user, identity_file := st.identity_file })
          else .validation_error
        else get_host_config_go lines host_alias bs
      | _, _, _ => get_host_config_go lines host_alias bs
    else get_host_config_go lines host_alias bs

/-- `SSHManager.get_host_config` (`src/rp/core/ssh_manager.py`): the
returned `Optional[SSHConfig]`, or the `ValidationError` escaping from
the constructor call. -/
def get_host_config (lines : Document) (host_alias : List Char) : GetHostResult :=
  get_host_config_go lines host_alias (parse_ssh_blocks lines)

end SSHManager

/-! ### Analysis definitions

The following definitions are not translations of further source code;
they are the vocabulary in which the claims are stated and proved about
the translations above: a single-pass state-machine reformulation of the
parser loop (proved equal to it), an index-based filter, and range
membership. -/

/-- Single-pass reformulation of the parser loop.  The third argument is
the scanner state: `none` between blocks, `some (start, group, marker)`
inside the block opened at `start` by a line with `group(1) = group`,
with `marker` the first marker-line index found so far. -/
def smGo : List Line → Nat → Option (Nat × List Char × Option Nat) → List HostBlock
  | [], _, none => []
  | [], i, some (st, g, mk) => [mkBlock st i g mk]
  | l :: ls, i, none =>
    match matchHostLine l with
    | some g => smGo ls (i + 1) (some (i, g, none))
    | none => smGo ls (i + 1) none
  | l :: ls, i, some (st, g, mk) =>
    if breakMatch l then
      mkBlock st i g mk ::
        (match matchHostLine l with
         | some g2 => smGo ls (i + 1) (some (i, g2, none))
         | none => smGo ls (i + 1) none)
    else smGo ls (i + 1) (some (st, g, mk <|> (if markerCond l then some i else none)))

/-- Is index `j` inside one of the half-open ranges? -/
def inRanges (rs : List (Nat × Nat)) (j : Nat) : Bool :=
  rs.any (fun r => decide (r.1 ≤ j) && decide (j < r.2))

/-- Keep exactly the elements whose (absolute) index satisfies `p`,
counting from `i`. -/
def keepIdxGo {α : Type} (p : Nat → Bool) : Nat → List α → List α
  | _, [] => []
  | i, x :: xs => if p i then x :: keepIdxGo p (i + 1) xs else keepIdxGo p (i + 1) xs

/-- The line range `[start, stop)` of a block, cut out of the document. -/
def blockSeg (lines : Document) (b : HostBlock) : Document :=
  (lines.drop b.start).take (b.stop - b.start)

/-- Reassemble a document from a block list: the gap before each block,
then the block's segment, then the remainder after the last block.  That
this returns the document itself is the no-information-loss invariant. -/
def rebuildGo (lines : Document) : Nat → List HostBlock → Document
  | cur, [] => lines.drop cur
  | cur, b :: bs =>
    (lines.drop cur).take (b.start - cur) ++ blockSeg lines b ++ rebuildGo lines b.stop bs

/-- A terminated well-formed text line: newline-free,
carriage-return-free content followed by a single `\n`.  A document all
of whose lines have this shape is read back unchanged from its own
concatenation. -/
def tLine (l : Line) : Prop := ∃ m, l = m ++ ['\n'] ∧ '\n' ∉ m ∧ '\r' ∉ m

/-! ### Generic list lemmas -/

theorem keepIdxGo_all_true {α : Type} (p : Nat → Bool) (xs : List α) :
    ∀ i, (∀ j, i ≤ j → j < i + xs.length → p j = true) → keepIdxGo p i xs = xs := by
  induction xs with
  | nil => intro i _; rfl
  | cons x xs ih =>
    intro i h
    have hp : p i = true := h i le_rfl (by simp [Nat.lt_add_of_pos_right, Nat.succ_pos])
    simp only [keepIdxGo, hp, if_true]
    rw [ih (i + 1)]
    intro j h1 h2
    exact h j (Nat.le_of_succ_le h1) (by simp only [List.length_cons]; omega)

theorem keepIdxGo_all_false {α : Type} (p : Nat → Bool) (xs : List α) :
    ∀ i, (∀ j, i ≤ j → j < i + xs.length → p j = false) → keepIdxGo p i xs = [] := by
  induction xs with
  | nil => intro i _; rfl
  | cons x xs ih =>
    intro i h
    have hp : p i = false := h i le_rfl (by simp [Nat.lt_add_of_pos_right, Nat.succ_pos])
    simp only [keepIdxGo, hp, if_false, Bool.false_eq_true]
    exact ih (i + 1) (fun j h1 h2 =>
      h j (Nat.le_of_succ_le h1) (by simp only [List.length_cons]; omega))

theorem keepIdxGo_append {α : Type} (p : Nat → Bool) (xs ys : List α) :
    ∀ i, keepIdxGo p i (xs ++ ys) = keepIdxGo p i xs ++ keepIdxGo p (i + xs.length) ys := by
  induction xs with
  | nil => intro i; simp [keepIdxGo]
  | cons x xs ih =>
    intro i
    simp only [List.cons_append, keepIdxGo]
    cases hp : p i <;> simp [ih (i + 1), List.length_cons] <;> ring_nf

theorem keepIdxGo_congr {α : Type} (p q : Nat → Bool) (xs : List α) :
    ∀ i, (∀ j, i ≤ j → p j = q j) → keepIdxGo p i xs = keepIdxGo q i xs := by
  induction xs with
  | nil => intro i _; rfl
  | cons x xs ih =>
    intro i h
    have hih := ih (i + 1) (fun j hj => h j (Nat.le_of_succ_le hj))
    simp only [keepIdxGo, h i le_rfl, hih]

theorem takeWhile_full_eq {α : Type} (P : α → Bool) (l : List α)
    (h : (l.takeWhile P).length = l.length) : l.takeWhile P = l :=
  (List.takeWhile_prefix P).eq_of_length h

theorem takeWhile_append_stop {α : Type} (P : α → Bool) (A X : List α)
    (h : ∀ x, X.head? = some x → P x = false) :
    (A ++ X).takeWhile P = A.takeWhile P := by
  have hX : X.takeWhile P = [] := by
    cases X with
    | nil => rfl
    | cons x xs => simp [List.takeWhile_cons, h x rfl]
  rw [List.takeWhile_append]
  split
  case isTrue ht => rw [hX, List.append_nil, takeWhile_full_eq P A ht]
  case isFalse => rfl

theorem takeWhile_stop_false {α : Type} (P : α → Bool) (l : List α) :
    (l.takeWhile P).length < l.length →
      ∃ x, l.get? (l.takeWhile P).length = some x ∧ P x = false := by
  induction l with
  | nil => intro h; simp at h
  | cons a l ih =>
    intro h
    cases hp : P a with
    | true =>
      rw [List.takeWhile_cons, if_pos hp] at h ⊢
      simp only [List.length_cons, Nat.add_lt_add_iff_right] at h
      obtain ⟨x, hx, hPx⟩ := ih h
      exact ⟨x, by simpa [List.length_cons] using hx, hPx⟩
    | false =>
      refine ⟨a, ?_, hp⟩
      simp [List.takeWhile_cons, hp]

/-! ### The state machine equals the parser loop -/

/-- Unfolding `smGo` in body state: the whole body (until the next break
line or EOF) is consumed at once; the emitted block records the first
marker index, and scanning resumes after the body. -/
theorem smGo_body (ls : List Line) :
    ∀ i st g mk, smGo ls i (some (st, g, mk)) =
      mkBlock st (i + (ls.takeWhile (fun l => ! breakMatch l)).length) g
          (mk <|> firstMarkerIdx (ls.takeWhile (fun l => ! breakMatch l)) i) ::
        smGo (ls.drop (ls.takeWhile (fun l => ! breakMatch l)).length)
          (i + (ls.takeWhile (fun l => ! breakMatch l)).length) none := by
  induction ls with
  | nil =>
    intro i st g mk
    cases mk <;> simp [smGo, firstMarkerIdx, Option.orElse]
  | cons l ls ih =>
    intro i st g mk
    cases hb : breakMatch l with
    | true =>
      have hP : (fun l => ! breakMatch l) l = false := by simp [hb]
      simp only [smGo, hb, if_true, List.takeWhile_cons, hP, Bool.false_eq_true,
        List.length_nil, Nat.add_zero, List.drop_zero, firstMarkerIdx]
      cases mk <;> simp [smGo, Option.orElse]
    | false =>
      have hP : (fun l => ! breakMatch l) l = true := by simp [hb]
      simp only [smGo, hb, Bool.false_eq_true, if_false, List.takeWhile_cons, hP, if_true,
        List.length_cons, List.drop_succ_cons, firstMarkerIdx]
      rw [ih (i + 1) st g (mk <|> if markerCond l then some i else none)]
      have harith : i + 1 + (ls.takeWhile (fun l => ! breakMatch l)).length =
          i + ((ls.takeWhile (fun l => ! breakMatch l)).length + 1) := by omega
      rw [harith]
      congr 2
      cases mk with
      | none =>
        cases hm : markerCond l <;> simp [Option.orElse, firstMarkerIdx, hm]
      | some v =>
        cases hm : markerCond l <;> simp [Option.orElse, firstMarkerIdx, hm]

/-- The fuel/index transcription of the parser's `while` loop computes the
same blocks as the single-pass state machine, for any sufficient fuel. -/
theorem parse_go_eq_smGo (lines : Document) :
    ∀ fuel i, lines.length - i < fuel →
      SSHManager.parse_ssh_blocks_go lines i fuel = smGo (lines.drop i) i none := by
  intro fuel
  induction fuel with
  | zero => intro i h; omega
  | succ fuel ih =>
    intro i h
    by_cases hi : i < lines.length
    · have hdrop : lines.drop i = nthLine lines i :: lines.drop (i + 1) := by
        rw [List.drop_eq_getElem_cons hi]
        congr 1
        simp [nthLine, List.get?_eq_getElem?, List.getElem?_eq_getElem hi]
      rw [hdrop]
      cases hm : matchHostLine (nthLine lines i) with
      | none =>
        simp only [SSHManager.parse_ssh_blocks_go, hi, if_true, hm]
        rw [ih (i + 1) (by omega)]
        simp [smGo, hm]
      | some g =>
        simp only [SSHManager.parse_ssh_blocks_go, hi, if_true, hm]
        simp only [smGo, hm]
        rw [smGo_body]
        have hdd : (lines.drop (i + 1)).drop
            ((lines.drop (i + 1)).takeWhile (fun l => ! breakMatch l)).length =
            lines.drop (i + 1 + ((lines.drop (i + 1)).takeWhile (fun l => ! breakMatch l)).length) := by
          rw [List.drop_drop]
        rw [hdd, ih (i + 1 + ((lines.drop (i + 1)).takeWhile (fun l => ! breakMatch l)).length)
          (by omega)]
        rw [Option.none_orElse]
    · have hdrop : lines.drop i = [] := by
        rw [List.drop_eq_nil_iff]; omega
      simp [SSHManager.parse_ssh_blocks_go, hi, hdrop, smGo]

/-- `SSHManager._parse_ssh_blocks` equals the state machine. -/
theorem parse_eq_smGo (lines : Document) :
    SSHManager.parse_ssh_blocks lines = smGo lines 0 none := by
  rw [SSHManager.parse_ssh_blocks, parse_go_eq_smGo lines (lines.length + 1) 0 (by omega)]
  rfl

/-! ### Parser invariants -/

theorem nthLine_cons_succ (l : Line) (ls : Document) (k : Nat) :
    nthLine (l :: ls) (k + 1) = nthLine ls k := by
  simp [nthLine]

theorem nthLine_cons_zero (l : Line) (ls : Document) : nthLine (l :: ls) 0 = l := by
  simp [nthLine]

theorem nthLine_drop (ls : Document) (k m : Nat) :
    nthLine (ls.drop k) m = nthLine ls (k + m) := by
  simp [nthLine, List.get?_eq_getElem?, List.getElem?_drop]

theorem takeWhile_len_le {α : Type} (P : α → Bool) (l : List α) :
    (l.takeWhile P).length ≤ l.length :=
  (List.takeWhile_prefix P).length_le

theorem mkBlock_start (st stp : Nat) (g : List Char) (mk : Option Nat) :
    (mkBlock st stp g mk).start = st := rfl

theorem mkBlock_stop (st stp : Nat) (g : List Char) (mk : Option Nat) :
    (mkBlock st stp g mk).stop = stp := rfl

theorem mkBlock_hosts (st stp : Nat) (g : List Char) (mk : Option Nat) :
    (mkBlock st stp g mk).hosts = pySplit (pyStrip g) := rfl

theorem mkBlock_managed (st stp : Nat) (g : List Char) (mk : Option Nat) :
    (mkBlock st stp g mk).managed = mk.isSome := rfl

/-- A line that opens a block also matches the break pattern (an opener
needs at least one whitespace character after the `Host` token). -/
theorem opener_break (l : Line) (g : List Char) (h : matchHostLine l = some g) :
    breakMatch l = true := by
  simp only [matchHostLine] at h
  split at h
  case isFalse => exact absurd h (by simp)
  case isTrue hs =>
    simp only [matchTail] at h
    split at h
    case isFalse => exact absurd h (by simp)
    case isTrue hc =>
      rw [Bool.and_eq_true] at hc
      have h1 : 1 ≤ (((l.dropWhile isPySpace).drop 4).takeWhile isPySpace).length := by
        have h2 := of_decide_eq_true hc.1
        exact (Nat.le_min.mp h2).1
      obtain ⟨x, r2, hr⟩ : ∃ x r2, (l.dropWhile isPySpace).drop 4 = x :: r2 := by
        cases hr : (l.dropWhile isPySpace).drop 4 with
        | nil => rw [hr] at h1; simp at h1
        | cons x r2 => exact ⟨x, r2, rfl⟩
      have hx : isPySpace x = true := by
        rw [hr, List.takeWhile_cons] at h1
        by_cases hxx : isPySpace x = true
        · exact hxx
        · simp [hxx] at h1
      unfold breakMatch
      simp [hs, hr, hx]

/-- Structural invariants of the scan: every block produced from the
suffix `ls` at base index `i` starts at or after `i`, is nonempty, ends
within the suffix, has an opening line matching the opener pattern, and,
unless it runs to EOF, ends at a break line; blocks are ordered and
non-overlapping. -/
theorem smGo_scan_inv (n : Nat) : ∀ ls : List Line, ls.length ≤ n → ∀ i,
    (∀ b ∈ smGo ls i none,
      i ≤ b.start ∧ b.start < b.stop ∧ b.stop ≤ i + ls.length ∧
      (∃ g, matchHostLine (nthLine ls (b.start - i)) = some g) ∧
      (b.stop < i + ls.length → breakMatch (nthLine ls (b.stop - i)) = true)) ∧
    List.Pairwise (fun x y => x.stop ≤ y.start) (smGo ls i none) := by
  induction n with
  | zero =>
    intro ls hls i
    have : ls = [] := List.eq_nil_of_length_eq_zero (by omega)
    subst this
    simp [smGo]
  | succ n ih =>
    intro ls hls i
    cases ls with
    | nil => simp [smGo]
    | cons l ls =>
      cases hm : matchHostLine l with
      | none =>
        have hrw : smGo (l :: ls) i none = smGo ls (i + 1) none := by
          simp [smGo, hm]
        obtain ⟨IH1, IH2⟩ := ih ls (by simp at hls; omega) (i + 1)
        rw [hrw]
        refine ⟨fun b hb => ?_, IH2⟩
        obtain ⟨hb1, hb2, hb3, ⟨g, hb4⟩, hb5⟩ := IH1 b hb
        refine ⟨by omega, hb2, by simp only [List.length_cons]; omega, ?_, ?_⟩
        · refine ⟨g, ?_⟩
          rw [show b.start - i = (b.start - (i + 1)) + 1 by omega, nthLine_cons_succ]
          exact hb4
        · intro hlt
          rw [show b.stop - i = (b.stop - (i + 1)) + 1 by omega, nthLine_cons_succ]
          exact hb5 (by simp only [List.length_cons] at hlt; omega)
      | some g =>
        have hrw : smGo (l :: ls) i none =
            mkBlock i (i + 1 + (ls.takeWhile (fun l => ! breakMatch l)).length) g
                (firstMarkerIdx (ls.takeWhile (fun l => ! breakMatch l)) (i + 1)) ::
              smGo (ls.drop (ls.takeWhile (fun l => ! breakMatch l)).length)
                (i + 1 + (ls.takeWhile (fun l => ! breakMatch l)).length) none := by
          simp only [smGo, hm]
          rw [smGo_body, Option.none_orElse]
        set B := (ls.takeWhile (fun l => ! breakMatch l)).length with hB
        have hBle : B ≤ ls.length := takeWhile_len_le _ ls
        obtain ⟨IH1, IH2⟩ := ih (ls.drop B)
          (by simp only [List.length_drop]; simp at hls; omega) (i + 1 + B)
        rw [hrw]
        constructor
        · intro b hb
          rcases List.mem_cons.mp hb with hb0 | hbr
          · subst hb0
            refine ⟨by rw [mkBlock_start],
              by rw [mkBlock_start, mkBlock_stop]; omega,
              by rw [mkBlock_stop]; simp only [List.length_cons]; omega,
              ⟨g, ?_⟩, ?_⟩
            · rw [mkBlock_start, Nat.sub_self, nthLine_cons_zero]
              exact hm
            · intro hlt
              rw [mkBlock_stop] at hlt ⊢
              simp only [List.length_cons] at hlt ⊢
              have hBlt : B < ls.length := by omega
              obtain ⟨x, hx, hPx⟩ := takeWhile_stop_false _ ls hBlt
              rw [← hB] at hx
              rw [show i + 1 + B - i = B + 1 by omega, nthLine_cons_succ]
              have hxB : nthLine ls B = x := by
                unfold nthLine
                rw [hx]
                rfl
              rw [hxB]
              simpa using hPx
          · obtain ⟨hb1, hb2, hb3, ⟨g2, hb4⟩, hb5⟩ := IH1 b hbr
            simp only [List.length_drop] at hb3 hb5
            have hsum : B + (ls.length - B) = ls.length := Nat.add_sub_cancel' hBle
            refine ⟨by omega, hb2, by simp only [List.length_cons]; omega, ?_, ?_⟩
            · refine ⟨g2, ?_⟩
              rw [nthLine_drop] at hb4
              rw [show b.start - i = (B + (b.start - (i + 1 + B))) + 1 by omega,
                nthLine_cons_succ]
              exact hb4
            · intro hlt
              have hb5' := hb5 (by simp only [List.length_cons] at hlt; omega)
              rw [nthLine_drop] at hb5'
              rw [show b.stop - i = (B + (b.stop - (i + 1 + B))) + 1 by omega,
                nthLine_cons_succ]
              exact hb5'
        · rw [List.pairwise_cons]
          refine ⟨fun b hb => ?_, IH2⟩
          obtain ⟨hb1, _, _, _, _⟩ := IH1 b hb
          rw [mkBlock_stop]
          omega

/-- The scan invariants of `SSHManager._parse_ssh_blocks`: blocks are
in-bounds, nonempty, in document order and pairwise non-overlapping;
every block starts at an opener line and, unless it runs to EOF, stops at
a break line. -/
theorem parse_inv (lines : Document) :
    (∀ b ∈ SSHManager.parse_ssh_blocks lines,
      b.start < b.stop ∧ b.stop ≤ lines.length ∧
      (∃ g, matchHostLine (nthLine lines b.start) = some g) ∧
      (b.stop < lines.length → breakMatch (nthLine lines b.stop) = true)) ∧
    List.Pairwise (fun x y => x.stop ≤ y.start) (SSHManager.parse_ssh_blocks lines) := by
  have h := smGo_scan_inv lines.length lines le_rfl 0
  rw [parse_eq_smGo]
  obtain ⟨h1, h2⟩ := h
  refine ⟨fun b hb => ?_, h2⟩
  obtain ⟨_, hb2, hb3, ⟨g, hb4⟩, hb5⟩ := h1 b hb
  simp only [Nat.zero_add, Nat.sub_zero] at hb3 hb4 hb5
  exact ⟨hb2, hb3, ⟨g, hb4⟩, hb5⟩

/-- Reassembling the scan's blocks with the gap lines reproduces the
suffix exactly. -/
theorem smGo_rebuild (n : Nat) : ∀ ls : List Line, ls.length ≤ n →
    ∀ (lines : Document) i, lines.drop i = ls →
      rebuildGo lines i (smGo ls i none) = lines.drop i := by
  induction n with
  | zero =>
    intro ls hls lines i hdrop
    have : ls = [] := List.eq_nil_of_length_eq_zero (by omega)
    subst this
    simp [smGo, rebuildGo]
  | succ n ih =>
    intro ls hls lines i hdrop
    cases ls with
    | nil => simp [smGo, rebuildGo]
    | cons l ls =>
      have hdrop1 : lines.drop (i + 1) = ls := by
        have : lines.drop (i + 1) = (lines.drop i).drop 1 := by
          rw [List.drop_drop]
        rw [this, hdrop, List.drop_succ_cons, List.drop_zero]
      cases hm : matchHostLine l with
      | none =>
        have hrw : smGo (l :: ls) i none = smGo ls (i + 1) none := by simp [smGo, hm]
        rw [hrw]
        have hIH := ih ls (by simp at hls; omega) lines (i + 1) hdrop1
        cases hbs : smGo ls (i + 1) none with
        | nil => simp [rebuildGo]
        | cons b bs =>
          have hstart : i + 1 ≤ b.start := by
            obtain ⟨h1, _⟩ := smGo_scan_inv ls.length ls le_rfl (i + 1)
            exact (h1 b (by rw [hbs]; exact List.mem_cons_self b bs)).1
          rw [hbs] at hIH
          simp only [rebuildGo] at hIH ⊢
          rw [hdrop1] at hIH
          rw [hdrop]
          rw [show b.start - i = (b.start - (i + 1)) + 1 by omega, List.take_succ_cons,
            List.cons_append, List.cons_append, hIH]
      | some g =>
        have hrw : smGo (l :: ls) i none =
            mkBlock i (i + 1 + (ls.takeWhile (fun l => ! breakMatch l)).length) g
                (firstMarkerIdx (ls.takeWhile (fun l => ! breakMatch l)) (i + 1)) ::
              smGo (ls.drop (ls.takeWhile (fun l => ! breakMatch l)).length)
                (i + 1 + (ls.takeWhile (fun l => ! breakMatch l)).length) none := by
          simp only [smGo, hm]
          rw [smGo_body, Option.none_orElse]
        set B := (ls.takeWhile (fun l => ! breakMatch l)).length with hB
        have hBle : B ≤ ls.length := takeWhile_len_le _ ls
        have hdropB : lines.drop (i + 1 + B) = ls.drop B := by
          rw [← hdrop1, List.drop_drop]
        have hIH := ih (ls.drop B) (by simp only [List.length_drop]; simp at hls; omega)
          lines (i + 1 + B) hdropB
        rw [hrw]
        simp only [rebuildGo, mkBlock, blockSeg]
        rw [hIH]
        rw [hdrop, hdropB]
        rw [Nat.sub_self, List.take_zero, show i + 1 + B - i = B + 1 by omega,
          List.take_succ_cons, List.nil_append, List.cons_append]
        rw [List.take_append_drop]

/-- Reassembling the parse of a document reproduces the document. -/
theorem parse_rebuild (lines : Document) :
    rebuildGo lines 0 (SSHManager.parse_ssh_blocks lines) = lines := by
  rw [parse_eq_smGo]
  have h := smGo_rebuild lines.length lines le_rfl lines 0 (by simp)
  simpa using h

/-- The scan distributes over an append whose right part begins with a
break line (or is empty): no block can straddle the boundary. -/
theorem smGo_append (n : Nat) : ∀ A : List Line, A.length ≤ n → ∀ (X : List Line) i,
    (X = [] ∨ ∃ x, X.head? = some x ∧ breakMatch x = true) →
    smGo (A ++ X) i none = smGo A i none ++ smGo X (i + A.length) none := by
  induction n with
  | zero =>
    intro A hA X i _
    have : A = [] := List.eq_nil_of_length_eq_zero (by omega)
    subst this
    simp [smGo]
  | succ n ih =>
    intro A hA X i hX
    cases A with
    | nil => simp [smGo]
    | cons l A =>
      have hXP : ∀ x, X.head? = some x → (fun l => ! breakMatch l) x = false := by
        intro x hx
        rcases hX with h0 | ⟨y, hy, hby⟩
        · rw [h0] at hx; simp at hx
        · rw [hy] at hx
          cases hx
          simp [hby]
      cases hm : matchHostLine l with
      | none =>
        have h1 : smGo ((l :: A) ++ X) i none = smGo (A ++ X) (i + 1) none := by
          simp [smGo, hm]
        have h2 : smGo (l :: A) i none = smGo A (i + 1) none := by
          simp [smGo, hm]
        rw [h1, h2, ih A (by simp at hA; omega) X (i + 1) hX]
        simp only [List.length_cons]
        congr 2
        omega
      | some g =>
        have htw : (A ++ X).takeWhile (fun l => ! breakMatch l) =
            A.takeWhile (fun l => ! breakMatch l) := takeWhile_append_stop _ A X hXP
        set B := (A.takeWhile (fun l => ! breakMatch l)).length with hB
        have hBle : B ≤ A.length := takeWhile_len_le _ A
        have h1 : smGo ((l :: A) ++ X) i none =
            mkBlock i (i + 1 + B) g
                (firstMarkerIdx (A.takeWhile (fun l => ! breakMatch l)) (i + 1)) ::
              smGo ((A ++ X).drop B) (i + 1 + B) none := by
          simp only [List.cons_append, smGo, hm]
          rw [smGo_body, Option.none_orElse]
          simp only [List.append_eq]
          rw [htw, ← hB]
        have h2 : smGo (l :: A) i none =
            mkBlock i (i + 1 + B) g
                (firstMarkerIdx (A.takeWhile (fun l => ! breakMatch l)) (i + 1)) ::
              smGo (A.drop B) (i + 1 + B) none := by
          simp only [smGo, hm]
          rw [smGo_body, Option.none_orElse]
        have hdropsplit : (A ++ X).drop B = A.drop B ++ X :=
          List.drop_append_of_le_length hBle
        rw [h1, h2, hdropsplit,
          ih (A.drop B) (by simp only [List.length_drop]; simp at hA; omega) X (i + 1 + B) hX]
        simp only [List.length_drop, List.length_cons, List.cons_append]
        congr 3
        omega

/-- Deleting a sorted list of disjoint in-bounds ranges by splicing is the
same as filtering out exactly the lines whose index lies in one of the
ranges. -/
theorem deleteRangesGo_eq_keep (lines : Document) :
    ∀ rs : List (Nat × Nat), ∀ cur,
    (∀ r ∈ rs, cur ≤ r.1) →
    (∀ r ∈ rs, r.1 < r.2 ∧ r.2 ≤ lines.length) →
    List.Pairwise (fun a b : Nat × Nat => a.2 ≤ b.1) rs →
    deleteRangesGo lines cur rs =
      keepIdxGo (fun j => ! inRanges rs j) cur (lines.drop cur) := by
  intro rs
  induction rs with
  | nil =>
    intro cur _ _ _
    rw [deleteRangesGo, keepIdxGo_all_true]
    intro j _ _
    simp [inRanges]
  | cons r rs ih =>
    intro cur hcur hbnd hpw
    obtain ⟨s, e⟩ := r
    have hcs : cur ≤ s := hcur (s, e) (List.mem_cons_self _ _)
    have hse : s < e ∧ e ≤ lines.length := hbnd (s, e) (List.mem_cons_self _ _)
    have hrest : ∀ r ∈ rs, e ≤ r.1 := (List.pairwise_cons.mp hpw).1
    have hsplit1 : lines.drop cur =
        (lines.drop cur).take (s - cur) ++ lines.drop s := by
      conv_lhs => rw [← List.take_append_drop (s - cur) (lines.drop cur)]
      have hcsum : cur + (s - cur) = s := by omega
      rw [List.drop_drop, hcsum]
    have hlen1 : ((lines.drop cur).take (s - cur)).length = s - cur := by
      rw [List.length_take, List.length_drop]
      omega
    have hsplit2 : lines.drop s = (lines.drop s).take (e - s) ++ lines.drop e := by
      conv_lhs => rw [← List.take_append_drop (e - s) (lines.drop s)]
      have hesum : s + (e - s) = e := by omega
      rw [List.drop_drop, hesum]
    have hlen2 : ((lines.drop s).take (e - s)).length = e - s := by
      rw [List.length_take, List.length_drop]
      omega
    have hgap : keepIdxGo (fun j => ! inRanges ((s, e) :: rs) j) cur
        ((lines.drop cur).take (s - cur)) = (lines.drop cur).take (s - cur) := by
      apply keepIdxGo_all_true
      intro j hj1 hj2
      rw [hlen1] at hj2
      have hjs : j < s := by omega
      simp only [inRanges, List.any_cons, Bool.not_eq_true', Bool.or_eq_false_iff]
      constructor
      · simp only [Bool.and_eq_false_iff, decide_eq_false_iff_not]
        left
        omega
      · simp only [List.any_eq_false]
        intro r hr
        have := hrest r hr
        simp only [Bool.and_eq_true, decide_eq_true_eq, not_and]
        intro hle
        omega
    have hmid : keepIdxGo (fun j => ! inRanges ((s, e) :: rs) j) s
        ((lines.drop s).take (e - s)) = [] := by
      apply keepIdxGo_all_false
      intro j hj1 hj2
      rw [hlen2] at hj2
      have hje : j < e := by omega
      simp only [inRanges, List.any_cons, Bool.not_eq_false']
      apply Bool.or_eq_true_iff.mpr
      left
      simp only [Bool.and_eq_true, decide_eq_true_eq]
      omega
    have htail : keepIdxGo (fun j => ! inRanges ((s, e) :: rs) j) e (lines.drop e) =
        deleteRangesGo lines e rs := by
      have hcongr := keepIdxGo_congr (fun j => ! inRanges ((s, e) :: rs) j)
        (fun j => ! inRanges rs j) (lines.drop e) e ?_
      · rw [hcongr]
        exact (ih e hrest (fun r hr => hbnd r (List.mem_cons_of_mem _ hr))
          (List.pairwise_cons.mp hpw).2).symm
      · intro j hj
        simp only [inRanges, List.any_cons]
        have hfirst : (decide (s ≤ j) && decide (j < e)) = false := by
          simp only [Bool.and_eq_false_iff, decide_eq_false_iff_not]
          right
          omega
        rw [hfirst, Bool.false_or]
    rw [deleteRangesGo]
    conv_rhs => rw [hsplit1]
    rw [keepIdxGo_append, hlen1]
    have hq1 : cur + (s - cur) = s := by omega
    rw [hq1, hgap]
    conv_rhs => rw [hsplit2]
    rw [keepIdxGo_append, hlen2]
    have hq2 : s + (e - s) = e := by omega
    rw [hq2, hmid, htail, List.nil_append]

/-- `SSHManager.parse_ssh_blocks` on the empty document. -/
theorem parse_nil : SSHManager.parse_ssh_blocks [] = [] := rfl

/-- The ranges of any sublist of parsed blocks satisfy the splice
preconditions. -/
theorem block_ranges_ok (lines : Document) (Q : HostBlock → Bool) :
    (∀ r ∈ ((SSHManager.parse_ssh_blocks lines).filter Q).map
        (fun b => (b.start, b.stop)), (0 : Nat) ≤ r.1) ∧
    (∀ r ∈ ((SSHManager.parse_ssh_blocks lines).filter Q).map
        (fun b => (b.start, b.stop)), r.1 < r.2 ∧ r.2 ≤ lines.length) ∧
    List.Pairwise (fun a b : Nat × Nat => a.2 ≤ b.1)
      (((SSHManager.parse_ssh_blocks lines).filter Q).map (fun b => (b.start, b.stop))) := by
  obtain ⟨h1, h2⟩ := parse_inv lines
  refine ⟨fun r _ => Nat.zero_le _, fun r hr => ?_, ?_⟩
  · obtain ⟨b, hb, hbr⟩ := List.mem_map.mp hr
    obtain ⟨hb1, hb2, _, _⟩ := h1 b (List.mem_of_mem_filter hb)
    rw [← hbr]
    exact ⟨hb1, hb2⟩
  · rw [List.pairwise_map]
    exact (h2.sublist (List.filter_sublist _)).imp (fun h => h)

/-- The splice loop on the ranges of a filtered block list equals
index-filtering the document. -/
theorem splice_eq_keep (lines : Document) (Q : HostBlock → Bool) :
    deleteRangesGo lines 0
        (((SSHManager.parse_ssh_blocks lines).filter Q).map (fun b => (b.start, b.stop))) =
      keepIdxGo (fun j => ! inRanges
        (((SSHManager.parse_ssh_blocks lines).filter Q).map (fun b => (b.start, b.stop))) j)
        0 lines := by
  obtain ⟨ha, hb, hc⟩ := block_ranges_ok lines Q
  have := deleteRangesGo_eq_keep lines
    (((SSHManager.parse_ssh_blocks lines).filter Q).map (fun b => (b.start, b.stop)))
    0 ha hb hc
  simpa using this

theorem keepIdxGo_empty_ranges (lines : Document) :
    keepIdxGo (fun j => ! inRanges [] j) 0 lines = lines := by
  apply keepIdxGo_all_true
  intro j _ _
  simp [inRanges]

/-! ### Claim theorems -/

/-- C10: for every input line sequence, the legacy parser
`parse_ssh_blocks` in `ssh_config.py` and the class-based parser
`SSHManager._parse_ssh_blocks` in `core/ssh_manager.py` return identical
lists of block descriptors (same start, end, hosts, managed,
marker_index for every block). -/
theorem claim_C10 : ∀ lines : Document,
    ssh_config.parse_ssh_blocks lines = SSHManager.parse_ssh_blocks lines := by
  have hgo : ∀ (lines : Document) fuel i,
      ssh_config.parse_ssh_blocks_go lines i fuel =
        SSHManager.parse_ssh_blocks_go lines i fuel := by
    intro lines fuel
    induction fuel with
    | zero => intro i; rfl
    | succ fuel ih =>
      intro i
      simp only [ssh_config.parse_ssh_blocks_go, SSHManager.parse_ssh_blocks_go]
      by_cases hi : i < lines.length
      · simp only [hi, if_true]
        cases hm : matchHostLine (nthLine lines i) <;> simp [hm, ih]
      · simp [hi]
  intro lines
  rw [ssh_config.parse_ssh_blocks, SSHManager.parse_ssh_blocks, hgo]

/-- C9: for every input line sequence, the parser's output blocks appear
in document order, are pairwise non-overlapping half-open index ranges,
and the block ranges together with the lines outside every block
partition the document: reassembling gaps and block segments in order
reproduces the input exactly. -/
theorem claim_C9 (lines : Document) :
    (∀ b ∈ SSHManager.parse_ssh_blocks lines, b.start < b.stop ∧ b.stop ≤ lines.length) ∧
    List.Pairwise (fun x y => x.stop ≤ y.start) (SSHManager.parse_ssh_blocks lines) ∧
    rebuildGo lines 0 (SSHManager.parse_ssh_blocks lines) = lines := by
  obtain ⟨h1, h2⟩ := parse_inv lines
  exact ⟨fun b hb => ⟨(h1 b hb).1, (h1 b hb).2.1⟩, h2, parse_rebuild lines⟩

/-- Witness for C9 at a concrete document. -/
theorem claim_C9_witness :
    (HostBlock.mk 0 2 [("x".toList)] false (-1)).start <
        (HostBlock.mk 0 2 [("x".toList)] false (-1)).stop ∧
    rebuildGo [("Host x\n".toList), ("    Port 1\n".toList)] 0
        (SSHManager.parse_ssh_blocks [("Host x\n".toList), ("    Port 1\n".toList)]) =
      [("Host x\n".toList), ("    Port 1\n".toList)] :=
  ⟨((claim_C9 [("Host x\n".toList), ("    Port 1\n".toList)]).1
      (HostBlock.mk 0 2 [("x".toList)] false (-1)) (by decide)).1,
    (claim_C9 [("Host x\n".toList), ("    Port 1\n".toList)]).2.2⟩

/-- `remove_host_config` deletes exactly the lines whose index lies in
the range of a managed block containing the alias. -/
theorem remove_characterization (lines : Document) (a : List Char) :
    SSHManager.remove_host_config lines a =
      (keepIdxGo (fun j => ! inRanges
          (((SSHManager.parse_ssh_blocks lines).filter
            (fun b => b.managed && decide (a ∈ b.hosts))).map (fun b => (b.start, b.stop))) j)
        0 lines,
       ! (((SSHManager.parse_ssh_blocks lines).filter
            (fun b => b.managed && decide (a ∈ b.hosts))).map
            (fun b => (b.start, b.stop))).isEmpty) := by
  by_cases hnil : lines = []
  · subst hnil
    rfl
  · simp only [SSHManager.remove_host_config, if_neg hnil]
    by_cases hR : ((SSHManager.parse_ssh_blocks lines).filter
        (fun b => b.managed && decide (a ∈ b.hosts))).map (fun b => (b.start, b.stop)) = []
    · rw [if_pos hR, hR, keepIdxGo_empty_ranges]
      rfl
    · rw [if_neg hR, splice_eq_keep lines (fun b => b.managed && decide (a ∈ b.hosts))]
      cases hC : ((SSHManager.parse_ssh_blocks lines).filter
          (fun b => b.managed && decide (a ∈ b.hosts))).map (fun b => (b.start, b.stop)) with
      | nil => exact absurd hC hR
      | cons r rs => rfl

/-- `prune_managed_blocks` deletes exactly the lines whose index lies in
the range of a managed block without a valid host. -/
theorem prune_characterization (lines : Document) (valid_aliases : List (List Char)) :
    SSHManager.prune_managed_blocks lines valid_aliases =
      (keepIdxGo (fun j => ! inRanges
          (((SSHManager.parse_ssh_blocks lines).filter
            (fun b => b.managed && ! b.hosts.any (fun h => decide (h ∈ valid_aliases)))).map
            (fun b => (b.start, b.stop))) j)
        0 lines,
       (((SSHManager.parse_ssh_blocks lines).filter
            (fun b => b.managed && ! b.hosts.any (fun h => decide (h ∈ valid_aliases)))).map
            (fun b => (b.start, b.stop))).length) := by
  by_cases hnil : lines = []
  · subst hnil
    rfl
  · simp only [SSHManager.prune_managed_blocks, if_neg hnil]
    by_cases hR : ((SSHManager.parse_ssh_blocks lines).filter
        (fun b => b.managed && ! b.hosts.any (fun h => decide (h ∈ valid_aliases)))).map
        (fun b => (b.start, b.stop)) = []
    · rw [if_pos hR, hR, keepIdxGo_empty_ranges]
      rfl
    · rw [if_neg hR,
        splice_eq_keep lines
          (fun b => b.managed && ! b.hosts.any (fun h => decide (h ∈ valid_aliases)))]

/-- C2: for every document and alias, `remove_host_config` deletes
exactly the blocks that are both managed and contain the alias in their
hosts list — the rewritten document keeps precisely the lines whose
index lies outside every such block's range, so unmanaged blocks are
never touched even when the alias matches — and returns whether any
block was removed; when no block qualifies every index is kept and the
document is unchanged. -/
theorem claim_C2 (lines : Document) (a : List Char) :
    SSHManager.remove_host_config lines a =
      (keepIdxGo (fun j => ! inRanges
          (((SSHManager.parse_ssh_blocks lines).filter
            (fun b => b.managed && decide (a ∈ b.hosts))).map (fun b => (b.start, b.stop))) j)
        0 lines,
       ! (((SSHManager.parse_ssh_blocks lines).filter
            (fun b => b.managed && decide (a ∈ b.hosts))).map
            (fun b => (b.start, b.stop))).isEmpty) :=
  remove_characterization lines a

/-- C3: for every document and set of valid aliases,
`prune_managed_blocks` deletes exactly the managed blocks whose hosts
list has empty intersection with the valid set — the rewritten document
keeps precisely the lines whose index lies outside every such block's
range, so managed blocks with at least one valid host and all unmanaged
blocks are retained in full — and returns the number of blocks
deleted. -/
theorem claim_C3 (lines : Document) (valid_aliases : List (List Char)) :
    SSHManager.prune_managed_blocks lines valid_aliases =
      (keepIdxGo (fun j => ! inRanges
          (((SSHManager.parse_ssh_blocks lines).filter
            (fun b => b.managed && ! b.hosts.any (fun h => decide (h ∈ valid_aliases)))).map
            (fun b => (b.start, b.stop))) j)
        0 lines,
       (((SSHManager.parse_ssh_blocks lines).filter
            (fun b => b.managed && ! b.hosts.any (fun h => decide (h ∈ valid_aliases)))).map
            (fun b => (b.start, b.stop))).length) :=
  prune_characterization lines valid_aliases

theorem find?_of_split {α : Type} (p : α → Bool) (l1 : List α) (b : α) (l2 : List α)
    (h1 : ∀ x ∈ l1, p x = false) (h2 : p b = true) :
    List.find? p (l1 ++ b :: l2) = some b := by
  induction l1 with
  | nil => exact List.find?_cons_of_pos l2 h2
  | cons x l1 ih =>
    rw [List.cons_append, List.find?_cons_of_neg _ (by simp [h1 x (List.mem_cons_self x l1)])]
    exact ih (fun y hy => h1 y (List.mem_cons_of_mem x hy))

/-- C1: for every document and host record, `update_host_config` replaces
in full the first block (managed or unmanaged) whose hosts list contains
the record's alias, substituting the canonical freshly built block; with
no matching block the fresh block is appended at the end of the document
(preceded by at most one separator line). -/
theorem claim_C1 (lines : Document) (cfg : SSHConfig) (ts : List Char) :
    (∀ bs1 b bs2, SSHManager.parse_ssh_blocks lines = bs1 ++ b :: bs2 →
      (∀ x ∈ bs1, cfg.host_alias ∉ x.hosts) → cfg.host_alias ∈ b.hosts →
      SSHManager.update_host_config lines cfg ts =
        lines.take b.start ++ cfg.to_ssh_block ts ++ lines.drop b.stop) ∧
    ((∀ b ∈ SSHManager.parse_ssh_blocks lines, cfg.host_alias ∉ b.hosts) →
      ∃ pad, (pad = ([] : Document) ∨ pad = [['\n']]) ∧
        SSHManager.update_host_config lines cfg ts = lines ++ pad ++ cfg.to_ssh_block ts) := by
  constructor
  · intro bs1 b bs2 hsplit hpre hb
    have hfind : (SSHManager.parse_ssh_blocks lines).find?
        (fun x => decide (cfg.host_alias ∈ x.hosts)) = some b := by
      rw [hsplit]
      exact find?_of_split _ bs1 b bs2
        (fun x hx => decide_eq_false (hpre x hx)) (by simp [hb])
    simp only [SSHManager.update_host_config, hfind]
  · intro hnone
    have hfind : (SSHManager.parse_ssh_blocks lines).find?
        (fun x => decide (cfg.host_alias ∈ x.hosts)) = none := by
      rw [List.find?_eq_none]
      intro x hx
      simp [hnone x hx]
    simp only [SSHManager.update_host_config, hfind]
    cases hlast : lines.getLast? with
    | none =>
      refine ⟨[], Or.inl rfl, ?_⟩
      simp
    | some last =>
      by_cases hstrip : pyStrip last = []
      · refine ⟨[], Or.inl rfl, ?_⟩
        simp [hstrip]
      · refine ⟨[['\n']], Or.inr rfl, ?_⟩
        simp [hstrip, List.append_assoc]

/-- Witness for C1: replacing an existing unmanaged block. -/
theorem claim_C1_witness :
    SSHManager.update_host_config [("Host x\n".toList), ("    HostName old\n".toList)]
        (SSHConfig.mk ("x".toList) ("p1".toList) ("h1".toList) 22 ("root".toList) none)
        ("T".toList) =
      ([("Host x\n".toList), ("    HostName old\n".toList)].take 0) ++
        (SSHConfig.mk ("x".toList) ("p1".toList) ("h1".toList) 22 ("root".toList) none).to_ssh_block
          ("T".toList) ++
        ([("Host x\n".toList), ("    HostName old\n".toList)].drop 2) :=
  (claim_C1 [("Host x\n".toList), ("    HostName old\n".toList)]
      (SSHConfig.mk ("x".toList) ("p1".toList) ("h1".toList) 22 ("root".toList) none)
      ("T".toList)).1
    [] (HostBlock.mk 0 2 [("x".toList)] false (-1)) [] (by decide)
    (by decide) (by decide)

/-- C6: when no block matches the alias, `update_host_config` appends: on
an empty document the result is exactly the new block (no leading blank
line); when the last line is non-blank exactly one blank separator line
is inserted before the new block; when the last line is blank no
separator is added. -/
theorem claim_C6 (lines : Document) (cfg : SSHConfig) (ts : List Char)
    (h : ∀ b ∈ SSHManager.parse_ssh_blocks lines, cfg.host_alias ∉ b.hosts) :
    (lines = [] → SSHManager.update_host_config lines cfg ts = cfg.to_ssh_block ts) ∧
    (∀ last, lines.getLast? = some last → pyStrip last ≠ [] →
      SSHManager.update_host_config lines cfg ts =
        lines ++ [['\n']] ++ cfg.to_ssh_block ts) ∧
    (∀ last, lines.getLast? = some last → pyStrip last = [] →
      SSHManager.update_host_config lines cfg ts = lines ++ cfg.to_ssh_block ts) := by
  have hfind : (SSHManager.parse_ssh_blocks lines).find?
      (fun x => decide (cfg.host_alias ∈ x.hosts)) = none := by
    rw [List.find?_eq_none]
    intro x hx
    simp [h x hx]
  refine ⟨?_, ?_, ?_⟩
  · intro hnil
    subst hnil
    simp [SSHManager.update_host_config, hfind, parse_nil]
  · intro last hlast hstrip
    simp only [SSHManager.update_host_config, hfind, hlast]
    simp [hstrip, List.append_assoc]
  · intro last hlast hstrip
    simp only [SSHManager.update_host_config, hfind, hlast]
    simp [hstrip]

theorem keep_block_infix (lines : Document) (p : Nat → Bool) (s e : Nat)
    (hse : s ≤ e) (he : e ≤ lines.length)
    (hkeep : ∀ j, s ≤ j → j < e → p j = true) :
    (lines.drop s).take (e - s) <:+: keepIdxGo p 0 lines := by
  have hsl : s ≤ lines.length := le_trans hse he
  have hsplit1 : lines = lines.take s ++ ((lines.drop s).take (e - s) ++ lines.drop e) := by
    conv_lhs => rw [← List.take_append_drop s lines]
    congr 1
    conv_lhs => rw [← List.take_append_drop (e - s) (lines.drop s)]
    have hesum : s + (e - s) = e := by omega
    rw [List.drop_drop, hesum]
  have hlt : (lines.take s).length = s := by
    rw [List.length_take]
    omega
  have hlm : ((lines.drop s).take (e - s)).length = e - s := by
    rw [List.length_take, List.length_drop]
    omega
  conv_rhs => rw [hsplit1]
  rw [keepIdxGo_append, keepIdxGo_append, hlt, hlm]
  simp only [Nat.zero_add]
  rw [keepIdxGo_all_true _ _ s (by intro j hj1 hj2; rw [hlm] at hj2; exact hkeep j hj1 (by omega))]
  rw [← List.append_assoc]
  exact List.infix_append _ _ _

/-- Any block whose descriptor fails the deletion test survives a splice
verbatim: its line segment is an infix of the index-filtered document. -/
theorem unmanaged_seg_infix (lines : Document) (Q : HostBlock → Bool) (bu : HostBlock)
    (hmem : bu ∈ SSHManager.parse_ssh_blocks lines) (hQ : Q bu = false) :
    blockSeg lines bu <:+:
      keepIdxGo (fun j => ! inRanges (((SSHManager.parse_ssh_blocks lines).filter Q).map
        (fun b => (b.start, b.stop))) j) 0 lines := by
  obtain ⟨hinv, hpw⟩ := parse_inv lines
  have hdisj : ∀ b ∈ SSHManager.parse_ssh_blocks lines, b ≠ bu →
      b.stop ≤ bu.start ∨ bu.stop ≤ b.start := by
    have hpw2 : List.Pairwise (fun x y : HostBlock => x.stop ≤ y.start ∨ y.stop ≤ x.start)
        (SSHManager.parse_ssh_blocks lines) := hpw.imp (fun h => Or.inl h)
    have hsym : Symmetric (fun x y : HostBlock => x.stop ≤ y.start ∨ y.stop ≤ x.start) := by
      intro x y h
      exact h.symm
    intro b hb hne
    exact hpw2.forall hsym hb hmem hne
  obtain ⟨hbu1, hbu2, _, _⟩ := hinv bu hmem
  rw [blockSeg]
  apply keep_block_infix lines _ bu.start bu.stop (le_of_lt hbu1) hbu2
  intro j hj1 hj2
  simp only [Bool.not_eq_true', inRanges, List.any_eq_false]
  intro r hr
  obtain ⟨b, hbf, hbr⟩ := List.mem_map.mp hr
  have hbQ : Q b = true := List.of_mem_filter hbf
  have hbmem : b ∈ SSHManager.parse_ssh_blocks lines := List.mem_of_mem_filter hbf
  have hne : b ≠ bu := by
    intro heq
    rw [heq, hQ] at hbQ
    exact Bool.false_ne_true hbQ
  have hcases := hdisj b hbmem hne
  rw [← hbr]
  simp only [Bool.and_eq_true, decide_eq_true_eq, not_and]
  intro hle
  rcases hcases with hcase | hcase <;> omega

/-- C4: for a document with one unmanaged block and one managed block for
a different alias, removing the managed block's alias or pruning with a
valid-alias set excluding it leaves the unmanaged block's lines
byte-identical and contiguous (an infix, in the same relative order) in
the rewritten document. -/
theorem claim_C4 (lines : Document) (a : List Char) (valid : List (List Char))
    (bu bm : HostBlock)
    (horder : SSHManager.parse_ssh_blocks lines = [bu, bm] ∨
      SSHManager.parse_ssh_blocks lines = [bm, bu])
    (hbu : bu.managed = false) (hbm : bm.managed = true)
    (ha1 : a ∈ bm.hosts) (ha2 : a ∉ bu.hosts) (hv : a ∉ valid) :
    blockSeg lines bu <:+: (SSHManager.remove_host_config lines a).1 ∧
    blockSeg lines bu <:+: (SSHManager.prune_managed_blocks lines valid).1 := by
  have hmem : bu ∈ SSHManager.parse_ssh_blocks lines := by
    rcases horder with h | h <;> rw [h] <;> simp
  constructor
  · have h1 : (SSHManager.remove_host_config lines a).1 =
        keepIdxGo (fun j => ! inRanges
          (((SSHManager.parse_ssh_blocks lines).filter
            (fun b => b.managed && decide (a ∈ b.hosts))).map (fun b => (b.start, b.stop))) j)
          0 lines := by
      rw [remove_characterization]
    rw [h1]
    exact unmanaged_seg_infix lines _ bu hmem (by simp [hbu])
  · have h1 : (SSHManager.prune_managed_blocks lines valid).1 =
        keepIdxGo (fun j => ! inRanges
          (((SSHManager.parse_ssh_blocks lines).filter
            (fun b => b.managed && ! b.hosts.any (fun h => decide (h ∈ valid)))).map
            (fun b => (b.start, b.stop))) j)
          0 lines := by
      rw [prune_characterization]
    rw [h1]
    exact unmanaged_seg_infix lines _ bu hmem (by simp [hbu])

/-- Witness for C4 at a concrete two-block document. -/
theorem claim_C4_witness :
    blockSeg [("Host u\n".toList), ("    HostName hu\n".toList), ("Host m\n".toList),
        ("    # rp:managed alias=m pod_id=p updated=T\n".toList)]
        (HostBlock.mk 0 2 [("u".toList)] false (-1)) <:+:
      (SSHManager.remove_host_config
        [("Host u\n".toList), ("    HostName hu\n".toList), ("Host m\n".toList),
          ("    # rp:managed alias=m pod_id=p updated=T\n".toList)] ("m".toList)).1 ∧
    blockSeg [("Host u\n".toList), ("    HostName hu\n".toList), ("Host m\n".toList),
        ("    # rp:managed alias=m pod_id=p updated=T\n".toList)]
        (HostBlock.mk 0 2 [("u".toList)] false (-1)) <:+:
      (SSHManager.prune_managed_blocks
        [("Host u\n".toList), ("    HostName hu\n".toList), ("Host m\n".toList),
          ("    # rp:managed alias=m pod_id=p updated=T\n".toList)] []).1 :=
  claim_C4 [("Host u\n".toList), ("    HostName hu\n".toList), ("Host m\n".toList),
      ("    # rp:managed alias=m pod_id=p updated=T\n".toList)]
    ("m".toList) [] (HostBlock.mk 0 2 [("u".toList)] false (-1))
    (HostBlock.mk 2 4 [("m".toList)] true 3)
    (Or.inl (by decide)) (by decide) (by decide) (by decide) (by decide) (by decide)

theorem pyStrip_all_space (l : List Char) (h : ∀ c ∈ l, isPySpace c = true) :
    pyStrip l = [] := by
  rw [pyStrip, List.dropWhile_eq_nil_iff.mpr h]
  rfl

/-! ### Idempotence infrastructure -/

theorem find?_eq_some_split {α : Type} (p : α → Bool) (l : List α) (b : α)
    (h : l.find? p = some b) :
    ∃ l1 l2, l = l1 ++ b :: l2 ∧ ∀ x ∈ l1, p x = false := by
  induction l with
  | nil => simp at h
  | cons x xs ih =>
    by_cases hx : p x = true
    · rw [List.find?_cons_of_pos _ hx] at h
      cases h
      exact ⟨[], xs, rfl, by simp⟩
    · rw [List.find?_cons_of_neg _ hx] at h
      obtain ⟨l1, l2, heq, hall⟩ := ih h
      refine ⟨x :: l1, l2, by rw [heq, List.cons_append], ?_⟩
      intro y hy
      rcases List.mem_cons.mp hy with rfl | hy2
      · exact Bool.not_eq_true _ ▸ Bool.of_not_eq_true hx
      · exact hall y hy2

theorem append_cons_inj {α : Type} (b : α) : ∀ (u u' v v' : List α),
    u ++ b :: v = u' ++ b :: v' → b ∉ u → b ∉ u' → u = u' ∧ v = v' := by
  intro u
  induction u with
  | nil =>
    intro u' v v' h _ hbu'
    cases u' with
    | nil =>
      simp only [List.nil_append, List.cons.injEq] at h
      exact ⟨rfl, h.2⟩
    | cons y u' =>
      simp only [List.nil_append, List.cons_append, List.cons.injEq] at h
      exact absurd (h.1 ▸ List.mem_cons_self y u') hbu'
  | cons x u ih =>
    intro u' v v' h hbu hbu'
    cases u' with
    | nil =>
      simp only [List.cons_append, List.nil_append, List.cons.injEq] at h
      exact absurd (h.1 ▸ List.mem_cons_self x u) (h.1 ▸ hbu)
    | cons y u' =>
      simp only [List.cons_append, List.cons.injEq] at h
      obtain ⟨rfl, h2⟩ := h
      have hbu2 : b ∉ u := fun hb => hbu (List.mem_cons_of_mem x hb)
      have hbu2' : b ∉ u' := fun hb => hbu' (List.mem_cons_of_mem x hb)
      obtain ⟨hu, hv⟩ := ih u' v v' h2 hbu2 hbu2'
      exact ⟨by rw [hu], hv⟩

/-- Distinct parsed blocks have distinct start indices, so a block is
determined by its start. -/
theorem parse_start_inj (lines : Document) :
    ∀ x ∈ SSHManager.parse_ssh_blocks lines, ∀ y ∈ SSHManager.parse_ssh_blocks lines,
      x.start = y.start → x = y := by
  obtain ⟨hinv, hpw⟩ := parse_inv lines
  have hpw2 : List.Pairwise (fun x y : HostBlock => x.start ≠ y.start)
      (SSHManager.parse_ssh_blocks lines) := by
    apply hpw.imp_of_mem
    intro a c ha hc h
    have h2 := (hinv a ha).1
    omega
  intro x hx y hy hxy
  by_contra hne
  exact hpw2.forall (fun a c h => h.symm) hx hy hne hxy

/-- Appending a single blank line never changes which host name lists the
parser produces (it opens no block and ends none early). -/
theorem smGo_hosts_append_nl :
    ∀ (ls : List Line) (i : Nat) (st : Option (Nat × List Char × Option Nat)),
      (smGo (ls ++ [['\n']]) i st).map (fun b => b.hosts) =
        (smGo ls i st).map (fun b => b.hosts) := by
  have hnl1 : matchHostLine ['\n'] = none := by decide
  have hnl2 : breakMatch ['\n'] = false := by decide
  intro ls
  induction ls with
  | nil =>
    intro i st
    match st with
    | none => simp [smGo, hnl1]
    | some (st', g, mk) =>
      simp [smGo, hnl1, hnl2, mkBlock]
  | cons l ls ih =>
    intro i st
    match st with
    | none =>
      rw [List.cons_append]
      cases hm : matchHostLine l with
      | some g => simp only [smGo, hm]; exact ih (i + 1) _
      | none => simp only [smGo, hm]; exact ih (i + 1) _
    | some (st', g, mk) =>
      rw [List.cons_append]
      cases hb : breakMatch l with
      | true =>
        simp only [smGo, hb, if_true, List.map_cons]
        cases hm : matchHostLine l with
        | some g2 => rw [ih (i + 1) _]
        | none => rw [ih (i + 1) _]
      | false =>
        simp only [smGo, hb, Bool.false_eq_true, if_false]
        exact ih (i + 1) _

theorem dropWhile_all_nonspace (l : List Char) (h : ∀ c ∈ l, isPySpace c = false) :
    l.dropWhile isPySpace = l := by
  cases l with
  | nil => rfl
  | cons c cs =>
    exact List.dropWhile_cons_of_neg (by simp [h c (List.mem_cons_self c cs)])

theorem pyStrip_all_nonspace (l : List Char) (h : ∀ c ∈ l, isPySpace c = false) :
    pyStrip l = l := by
  rw [pyStrip, dropWhile_all_nonspace l h,
    dropWhile_all_nonspace l.reverse (fun c hc => h c (List.mem_reverse.mp hc)),
    List.reverse_reverse]

theorem pySplitGo_all_nonspace : ∀ (l acc : List Char), (∀ c ∈ l, isPySpace c = false) →
    pySplitGo acc l =
      if acc.reverse ++ l = [] then [] else [acc.reverse ++ l] := by
  intro l
  induction l with
  | nil =>
    intro acc _
    simp only [pySplitGo, List.append_nil]
    by_cases hacc : acc = []
    · subst hacc
      rfl
    · rw [if_neg hacc, if_neg (by simp [hacc])]
  | cons c cs ih =>
    intro acc h
    have hc : isPySpace c = false := h c (List.mem_cons_self c cs)
    simp only [pySplitGo, hc, Bool.false_eq_true, if_false]
    rw [ih (c :: acc) (fun x hx => h x (List.mem_cons_of_mem c hx))]
    have hr : (c :: acc).reverse ++ cs = acc.reverse ++ (c :: cs) := by
      simp
    rw [hr]

theorem pySplit_single_token (a : List Char) (h1 : a ≠ [])
    (h2 : ∀ c ∈ a, isPySpace c = false) : pySplit a = [a] := by
  rw [pySplit, pySplitGo_all_nonspace a [] h2]
  simp [h1]

/-- The opening line of a freshly built block parses back to exactly the
record's alias, provided the alias is a nonempty whitespace-free token. -/
theorem matchHostLine_newhead (a : List Char) (h1 : a ≠ [])
    (h2 : ∀ c ∈ a, isPySpace c = false) :
    matchHostLine (("Host ".toList) ++ a ++ ['\n']) = some a := by
  obtain ⟨c, a', rfl⟩ := List.exists_cons_of_ne_nil h1
  have hc : isPySpace c = false := h2 c (List.mem_cons_self c a')
  have hshape : ("Host ".toList) ++ (c :: a') ++ ['\n'] =
      'H' :: 'o' :: 's' :: 't' :: ' ' :: ((c :: a') ++ ['\n']) := by simp
  rw [hshape]
  have hdw : (('H' :: 'o' :: 's' :: 't' :: ' ' :: ((c :: a') ++ ['\n'])) :
      List Char).dropWhile isPySpace = 'H' :: 'o' :: 's' :: 't' :: ' ' :: ((c :: a') ++ ['\n']) :=
    List.dropWhile_cons_of_neg (by decide)
  have hsw : startsW hostKw ('H' :: 'o' :: 's' :: 't' :: ' ' :: ((c :: a') ++ ['\n'])) = true := by
    rw [startsW]
    apply decide_eq_true
    rfl
  simp only [matchHostLine, hdw, hsw, if_true]
  show matchTail (' ' :: ((c :: a') ++ ['\n'])) = some (c :: a')
  have hre : (' ' :: ((c :: a') ++ ['\n'])) = (' ' :: c :: a') ++ ['\n'] := by simp
  have hchomp : chomp (' ' :: ((c :: a') ++ ['\n'])) = ' ' :: c :: a' := by
    rw [hre]
    simp only [chomp, List.getLast?_concat, if_pos rfl]
    exact List.dropLast_concat
  have htw : ((' ' :: ((c :: a') ++ ['\n'])).takeWhile isPySpace).length = 1 := by
    rw [List.takeWhile_cons, if_pos (by decide), List.cons_append, List.takeWhile_cons,
      if_neg (by simp [hc])]
    rfl
  simp only [matchTail, hchomp, htw]
  have hlen : (' ' :: c :: a' : List Char).length - 1 = a'.length + 1 := by
    simp
  rw [hlen]
  have hmin : min 1 (a'.length + 1) = 1 := by omega
  rw [hmin]
  have hcond : decide (1 ≤ 1) = true := by decide
  have hdrop : (' ' :: c :: a' : List Char).drop 1 = c :: a' := rfl
  rw [hcond, hdrop]
  have hall : (c :: a').all (fun ch => ch != '\n') = true := by
    rw [List.all_eq_true]
    intro x hx
    have hxs : isPySpace x = false := h2 x hx
    have : x ≠ '\n' := by
      intro hEq
      rw [hEq] at hxs
      exact absurd hxs (by decide)
    simpa using this
  rw [hall]
  rfl

/-- No line of a freshly built block other than its opening line matches
the break pattern: the body always survives intact to the next parse. -/
theorem to_ssh_block_body_nonbreak (cfg : SSHConfig) (ts : List Char) :
    ∀ l ∈ (cfg.to_ssh_block ts).tail, breakMatch l = false := by
  intro l hl
  rw [SSHConfig.to_ssh_block] at hl
  cases hid : cfg.identity_file with
  | none =>
    rw [hid] at hl
    simp only [List.cons_append, List.nil_append, List.tail_cons, List.mem_append,
      List.mem_cons, List.not_mem_nil, or_false, List.mem_singleton] at hl
    rcases hl with rfl | rfl | rfl | rfl | rfl <;> rfl
  | some f =>
    rw [hid] at hl
    dsimp only at hl
    by_cases hf : f = []
    · rw [if_pos hf] at hl
      simp only [List.cons_append, List.nil_append, List.tail_cons, List.mem_append,
        List.mem_cons, List.not_mem_nil, or_false, List.mem_singleton] at hl
      rcases hl with rfl | rfl | rfl | rfl | rfl <;> rfl
    · rw [if_neg hf] at hl
      simp only [List.cons_append, List.nil_append, List.tail_cons, List.mem_append,
        List.mem_cons, List.not_mem_nil, or_false, List.mem_singleton] at hl
      rcases hl with rfl | rfl | rfl | rfl | rfl | rfl | rfl <;> rfl

/-- A document of the shape `A ++ freshBlock ++ X`, where no block of `A`
matches the alias and `X` starts at a block boundary, is a fixed point of
`update_host_config`: the parser finds the fresh block first and the
replacement reproduces the document. -/
theorem update_on_inserted (A X : Document) (cfg : SSHConfig) (ts : List Char)
    (h1 : cfg.host_alias ≠ []) (h2 : ∀ c ∈ cfg.host_alias, isPySpace c = false)
    (hA : ∀ b ∈ SSHManager.parse_ssh_blocks A, cfg.host_alias ∉ b.hosts)
    (hX : X = [] ∨ ∃ x, X.head? = some x ∧ breakMatch x = true) :
    SSHManager.update_host_config (A ++ cfg.to_ssh_block ts ++ X) cfg ts =
      A ++ cfg.to_ssh_block ts ++ X := by
  obtain ⟨nbRest, hNB⟩ : ∃ r, cfg.to_ssh_block ts =
      (("Host ".toList) ++ cfg.host_alias ++ ['\n']) :: r := ⟨_, rfl⟩
  have hhead : matchHostLine (("Host ".toList) ++ cfg.host_alias ++ ['\n']) =
      some cfg.host_alias := matchHostLine_newhead _ h1 h2
  have hrest : ∀ l ∈ nbRest, breakMatch l = false := by
    have hbody := to_ssh_block_body_nonbreak cfg ts
    rw [hNB] at hbody
    simpa using hbody
  have hXP : ∀ x, X.head? = some x → (fun l => ! breakMatch l) x = false := by
    intro x hx
    rcases hX with h0 | ⟨y, hy, hby⟩
    · rw [h0] at hx
      simp at hx
    · rw [hy] at hx
      cases hx
      simp [hby]
  have htwX : (nbRest ++ X).takeWhile (fun l => ! breakMatch l) = nbRest := by
    rw [takeWhile_append_stop _ _ _ hXP]
    rw [List.takeWhile_eq_self_iff]
    intro x hx
    simp [hrest x hx]
  have hlenNB : (cfg.to_ssh_block ts).length = nbRest.length + 1 := by
    rw [hNB]
    simp
  have hsmNB : smGo ((cfg.to_ssh_block ts) ++ X) A.length none =
      mkBlock A.length (A.length + (cfg.to_ssh_block ts).length) cfg.host_alias
          (firstMarkerIdx nbRest (A.length + 1)) ::
        smGo X (A.length + (cfg.to_ssh_block ts).length) none := by
    have hdropX : (nbRest ++ X).drop nbRest.length = X := List.drop_left _ _
    have harith : A.length + 1 + nbRest.length = A.length + (nbRest.length + 1) := by omega
    conv_lhs => rw [hNB, List.cons_append]
    simp only [smGo, hhead]
    rw [smGo_body, Option.none_orElse, htwX, hdropX, harith, ← hlenNB]
  have hparse : SSHManager.parse_ssh_blocks (A ++ cfg.to_ssh_block ts ++ X) =
      SSHManager.parse_ssh_blocks A ++
        mkBlock A.length (A.length + (cfg.to_ssh_block ts).length) cfg.host_alias
            (firstMarkerIdx nbRest (A.length + 1)) ::
          smGo X (A.length + (cfg.to_ssh_block ts).length) none := by
    rw [parse_eq_smGo, List.append_assoc]
    rw [smGo_append A.length A le_rfl (cfg.to_ssh_block ts ++ X) 0
      (Or.inr ⟨("Host ".toList) ++ cfg.host_alias ++ ['\n'],
        by rw [hNB, List.cons_append]; rfl, opener_break _ _ hhead⟩)]
    rw [Nat.zero_add, hsmNB, ← parse_eq_smGo]
  have hfind : (SSHManager.parse_ssh_blocks (A ++ cfg.to_ssh_block ts ++ X)).find?
      (fun x => decide (cfg.host_alias ∈ x.hosts)) =
      some (mkBlock A.length (A.length + (cfg.to_ssh_block ts).length) cfg.host_alias
        (firstMarkerIdx nbRest (A.length + 1))) := by
    rw [hparse]
    apply find?_of_split
    · intro x hx
      exact decide_eq_false (hA x hx)
    · apply decide_eq_true
      rw [mkBlock_hosts, pyStrip_all_nonspace _ h2, pySplit_single_token _ h1 h2]
      exact List.mem_singleton.mpr rfl
  simp only [SSHManager.update_host_config, hfind, mkBlock_start, mkBlock_stop]
  have htake : (A ++ cfg.to_ssh_block ts ++ X).take A.length = A := by
    rw [List.append_assoc]
    exact List.take_left A _
  have hdrop : (A ++ cfg.to_ssh_block ts ++ X).drop
      (A.length + (cfg.to_ssh_block ts).length) = X := by
    rw [show A.length + (cfg.to_ssh_block ts).length = (A ++ cfg.to_ssh_block ts).length by
      rw [List.length_append]]
    exact List.drop_left _ _
  rw [htake, hdrop]

/-- `update_host_config` is idempotent for any record whose alias is a
nonempty whitespace-free token: a second run finds exactly the block it
just wrote and replaces it by itself. -/
theorem update_host_config_idem (lines : Document) (cfg : SSHConfig) (ts : List Char)
    (h1 : cfg.host_alias ≠ []) (h2 : ∀ c ∈ cfg.host_alias, isPySpace c = false) :
    SSHManager.update_host_config (SSHManager.update_host_config lines cfg ts) cfg ts =
      SSHManager.update_host_config lines cfg ts := by
  cases hfind : (SSHManager.parse_ssh_blocks lines).find?
      (fun x => decide (cfg.host_alias ∈ x.hosts)) with
  | none =>
    have hnone : ∀ b ∈ SSHManager.parse_ssh_blocks lines, cfg.host_alias ∉ b.hosts := by
      intro b hb
      have := List.find?_eq_none.mp hfind b hb
      simpa using this
    have hD1 : SSHManager.update_host_config lines cfg ts =
        (match lines.getLast? with
         | some last => if pyStrip last = [] then lines else lines ++ [['\n']]
         | none => lines) ++ cfg.to_ssh_block ts := by
      simp only [SSHManager.update_host_config, hfind]
    have hAval : (match lines.getLast? with
        | some last => if pyStrip last = [] then lines else lines ++ [['\n']]
        | none => lines) = lines ∨
        (match lines.getLast? with
         | some last => if pyStrip last = [] then lines else lines ++ [['\n']]
         | none => lines) = lines ++ [['\n']] := by
      split
      · split
        · exact Or.inl rfl
        · exact Or.inr rfl
      · exact Or.inl rfl
    have hA2 : ∀ b ∈ SSHManager.parse_ssh_blocks (match lines.getLast? with
        | some last => if pyStrip last = [] then lines else lines ++ [['\n']]
        | none => lines), cfg.host_alias ∉ b.hosts := by
      rcases hAval with hv | hv <;> rw [hv]
      · exact hnone
      · intro b hb
        have hmap : b.hosts ∈ (SSHManager.parse_ssh_blocks (lines ++ [['\n']])).map
            (fun x => x.hosts) := List.mem_map_of_mem _ hb
        rw [parse_eq_smGo, smGo_hosts_append_nl] at hmap
        obtain ⟨b2, hb2, hbe⟩ := List.mem_map.mp hmap
        rw [← hbe]
        exact hnone b2 (by rw [parse_eq_smGo]; exact hb2)
    rw [hD1]
    have h := update_on_inserted (match lines.getLast? with
        | some last => if pyStrip last = [] then lines else lines ++ [['\n']]
        | none => lines) [] cfg ts h1 h2 hA2 (Or.inl rfl)
    simpa using h
  | some b =>
    have hmem := List.mem_of_find?_eq_some hfind
    obtain ⟨hb1, hb2, ⟨g0, hb3⟩, hb4⟩ := (parse_inv lines).1 b hmem
    have hAlen : (lines.take b.start).length = b.start := by
      rw [List.length_take]
      omega
    have hdropS : lines.drop b.start = nthLine lines b.start :: lines.drop (b.start + 1) := by
      rw [List.drop_eq_getElem_cons (by omega : b.start < lines.length)]
      congr 1
      simp [nthLine, List.get?_eq_getElem?,
        List.getElem?_eq_getElem (show b.start < lines.length by omega)]
    have hparse_split : SSHManager.parse_ssh_blocks lines =
        SSHManager.parse_ssh_blocks (lines.take b.start) ++
          smGo (lines.drop b.start) b.start none := by
      conv_lhs =>
        rw [show lines = lines.take b.start ++ lines.drop b.start from
          (List.take_append_drop _ _).symm]
      rw [parse_eq_smGo,
        smGo_append (lines.take b.start).length _ le_rfl (lines.drop b.start) 0
          (Or.inr ⟨nthLine lines b.start, by rw [hdropS]; rfl, opener_break _ _ hb3⟩),
        Nat.zero_add, hAlen, ← parse_eq_smGo]
    have hS : smGo (lines.drop b.start) b.start none =
        mkBlock b.start
            (b.start + 1 +
              ((lines.drop (b.start + 1)).takeWhile (fun l => ! breakMatch l)).length) g0
            (firstMarkerIdx ((lines.drop (b.start + 1)).takeWhile (fun l => ! breakMatch l))
              (b.start + 1)) ::
          smGo ((lines.drop (b.start + 1)).drop
              ((lines.drop (b.start + 1)).takeWhile (fun l => ! breakMatch l)).length)
            (b.start + 1 +
              ((lines.drop (b.start + 1)).takeWhile (fun l => ! breakMatch l)).length) none := by
      rw [hdropS]
      simp only [smGo, hb3]
      rw [smGo_body, Option.none_orElse]
    have hB0mem : mkBlock b.start
        (b.start + 1 + ((lines.drop (b.start + 1)).takeWhile (fun l => ! breakMatch l)).length) g0
        (firstMarkerIdx ((lines.drop (b.start + 1)).takeWhile (fun l => ! breakMatch l))
          (b.start + 1)) ∈ SSHManager.parse_ssh_blocks lines := by
      rw [hparse_split, hS]
      exact List.mem_append_right _ (List.mem_cons_self _ _)
    have hbeq : b = mkBlock b.start
        (b.start + 1 + ((lines.drop (b.start + 1)).takeWhile (fun l => ! breakMatch l)).length) g0
        (firstMarkerIdx ((lines.drop (b.start + 1)).takeWhile (fun l => ! breakMatch l))
          (b.start + 1)) :=
      parse_start_inj lines b hmem _ hB0mem (by rw [mkBlock_start])
    obtain ⟨l1, l2, hsplit12, hl1⟩ := find?_eq_some_split _ _ _ hfind
    have hbl1 : b ∉ l1 := by
      intro hb
      have hfalse := hl1 b hb
      have htrue := List.find?_some hfind
      rw [hfalse] at htrue
      exact absurd htrue (by simp)
    have hbA : b ∉ SSHManager.parse_ssh_blocks (lines.take b.start) := by
      intro hbin
      obtain ⟨c1, c2, _, _⟩ := (parse_inv (lines.take b.start)).1 b hbin
      rw [List.length_take] at c2
      omega
    have hdecomp : SSHManager.parse_ssh_blocks lines =
        SSHManager.parse_ssh_blocks (lines.take b.start) ++ b ::
          smGo ((lines.drop (b.start + 1)).drop
              ((lines.drop (b.start + 1)).takeWhile (fun l => ! breakMatch l)).length)
            (b.start + 1 +
              ((lines.drop (b.start + 1)).takeWhile (fun l => ! breakMatch l)).length) none := by
      rw [hparse_split, hS, ← hbeq]
    have heq12 := append_cons_inj b l1 (SSHManager.parse_ssh_blocks (lines.take b.start)) l2 _
      (hsplit12.symm.trans hdecomp) hbl1 hbA
    have hA : ∀ x ∈ SSHManager.parse_ssh_blocks (lines.take b.start),
        cfg.host_alias ∉ x.hosts := by
      intro x hx
      rw [← heq12.1] at hx
      have := hl1 x hx
      simpa using this
    have hX : lines.drop b.stop = [] ∨
        ∃ x, (lines.drop b.stop).head? = some x ∧ breakMatch x = true := by
      by_cases hlt : b.stop < lines.length
      · refine Or.inr ⟨nthLine lines b.stop, ?_, hb4 hlt⟩
        rw [List.drop_eq_getElem_cons hlt]
        simp [nthLine, List.get?_eq_getElem?, List.getElem?_eq_getElem hlt]
      · exact Or.inl (List.drop_eq_nil_iff.mpr (by omega))
    simp only [SSHManager.update_host_config, hfind]
    exact update_on_inserted (lines.take b.start) (lines.drop b.stop) cfg ts h1 h2 hA hX

/-! ### Read-back lemmas (get_host_config) -/

theorem readStep_user (st : ReadState) (raw : Line)
    (h : startsW ("User ".toList) (pyStrip raw) = false) :
    (readStep st raw).user = st.user := by
  simp only [readStep]
  split_ifs with h1 h2 h3 h4 h5
  · rfl
  · cases pyIntParse (pyStrip ((pyStrip raw).drop 5)) <;> rfl
  · rw [h] at h3
    exact absurd h3 (by simp)
  · rfl
  · cases rePodId (pyStrip raw) <;> rfl
  · rfl

theorem readStep_identity (st : ReadState) (raw : Line)
    (h : startsW ("IdentityFile ".toList) (pyStrip raw) = false) :
    (readStep st raw).identity_file = st.identity_file := by
  simp only [readStep]
  split_ifs with h1 h2 h3 h4 h5
  · rfl
  · cases pyIntParse (pyStrip ((pyStrip raw).drop 5)) <;> rfl
  · rfl
  · rw [h] at h4
    exact absurd h4 (by simp)
  · cases rePodId (pyStrip raw) <;> rfl
  · rfl

theorem readStep_port (st : ReadState) (raw : Line)
    (h : startsW ("Port ".toList) (pyStrip raw) = true →
      pyIntParse (pyStrip ((pyStrip raw).drop 5)) = none) :
    (readStep st raw).port = st.port := by
  simp only [readStep]
  split_ifs with h1 h2 h3 h4 h5
  · rfl
  · rw [h h2]
  · rfl
  · rfl
  · cases rePodId (pyStrip raw) <;> rfl
  · rfl

theorem readStep_podid (st : ReadState) (raw : Line) (p : List Char)
    (h : (readStep st raw).pod_id = some p) :
    st.pod_id = some p ∨
      (startsW rpMarker (pyStrip raw) = true ∧ rePodId (pyStrip raw) = some p) := by
  simp only [readStep] at h
  split_ifs at h with h1 h2 h3 h4 h5
  · exact Or.inl h
  · cases hp : pyIntParse (pyStrip ((pyStrip raw).drop 5)) <;> rw [hp] at h <;> exact Or.inl h
  · exact Or.inl h
  · exact Or.inl h
  · cases hp : rePodId (pyStrip raw) with
    | none =>
      rw [hp] at h
      exact Or.inl h
    | some q =>
      rw [hp] at h
      exact Or.inr ⟨by rw [Bool.and_eq_true] at h5; exact h5.1, h⟩
  · exact Or.inl h

theorem foldl_user (body : Document) : ∀ st : ReadState,
    (∀ l ∈ body, startsW ("User ".toList) (pyStrip l) = false) →
    (body.foldl readStep st).user = st.user := by
  induction body with
  | nil => intro st _; rfl
  | cons l body ih =>
    intro st h
    rw [List.foldl_cons, ih _ (fun x hx => h x (List.mem_cons_of_mem l hx)),
      readStep_user st l (h l (List.mem_cons_self l body))]

theorem foldl_identity (body : Document) : ∀ st : ReadState,
    (∀ l ∈ body, startsW ("IdentityFile ".toList) (pyStrip l) = false) →
    (body.foldl readStep st).identity_file = st.identity_file := by
  induction body with
  | nil => intro st _; rfl
  | cons l body ih =>
    intro st h
    rw [List.foldl_cons, ih _ (fun x hx => h x (List.mem_cons_of_mem l hx)),
      readStep_identity st l (h l (List.mem_cons_self l body))]

theorem foldl_port (body : Document) : ∀ st : ReadState,
    (∀ l ∈ body, startsW ("Port ".toList) (pyStrip l) = true →
      pyIntParse (pyStrip ((pyStrip l).drop 5)) = none) →
    (body.foldl readStep st).port = st.port := by
  induction body with
  | nil => intro st _; rfl
  | cons l body ih =>
    intro st h
    rw [List.foldl_cons, ih _ (fun x hx => h x (List.mem_cons_of_mem l hx)),
      readStep_port st l (h l (List.mem_cons_self l body))]

theorem foldl_podid (body : Document) : ∀ (st : ReadState) (p : List Char),
    (body.foldl readStep st).pod_id = some p →
    st.pod_id = some p ∨
      ∃ l ∈ body, startsW rpMarker (pyStrip l) = true ∧ rePodId (pyStrip l) = some p := by
  induction body with
  | nil =>
    intro st p h
    exact Or.inl h
  | cons l body ih =>
    intro st p h
    rw [List.foldl_cons] at h
    rcases ih _ p h with h2 | ⟨l2, hl2, hc⟩
    · rcases readStep_podid st l p h2 with h3 | h3
      · exact Or.inl h3
      · exact Or.inr ⟨l, List.mem_cons_self l body, h3⟩
    · exact Or.inr ⟨l2, List.mem_cons_of_mem l hl2, hc⟩

theorem get_go_none_iff (lines : Document) (a : List Char) : ∀ bs : List HostBlock,
    SSHManager.get_host_config_go lines a bs = GetHostResult.ret none ↔
      ∀ b ∈ bs, b.managed = true → a ∈ b.hosts →
        ¬ ∃ h p pid, (extractBlock lines b).hostname = some h ∧
            (extractBlock lines b).port = some p ∧
            (extractBlock lines b).pod_id = some pid ∧
            h ≠ [] ∧ p ≠ 0 ∧ pid ≠ [] := by
  intro bs
  induction bs with
  | nil => simp [SSHManager.get_host_config_go]
  | cons b bs ih =>
    by_cases hcond : (decide (a ∈ b.hosts) && b.managed) = true
    · have hcond2 : decide (a ∈ b.hosts) = true ∧ b.managed = true := by
        rw [Bool.and_eq_true] at hcond
        exact hcond
      have hmemb : a ∈ b.hosts := of_decide_eq_true hcond2.1
      have hmng : b.managed = true := hcond2.2
      cases hh : (extractBlock lines b).hostname with
      | none =>
        rw [show SSHManager.get_host_config_go lines a (b :: bs) =
            SSHManager.get_host_config_go lines a bs by
          simp only [SSHManager.get_host_config_go, hcond, if_true, hh]]
        rw [ih]
        constructor
        · intro hall
          intro b2 hb2
          rcases List.mem_cons.mp hb2 with rfl | hb2m
          · intro _ _ hex
            obtain ⟨h', p', pid', hex1, _⟩ := hex
            rw [hh] at hex1
            exact absurd hex1 (by simp)
          · exact hall b2 hb2m
        · intro hall b2 hb2m
          exact hall b2 (List.mem_cons_of_mem b hb2m)
      | some hv =>
        cases hp : (extractBlock lines b).port with
        | none =>
          rw [show SSHManager.get_host_config_go lines a (b :: bs) =
              SSHManager.get_host_config_go lines a bs by
            simp only [SSHManager.get_host_config_go, hcond, if_true, hh, hp]]
          rw [ih]
          constructor
          · intro hall b2 hb2
            rcases List.mem_cons.mp hb2 with rfl | hb2m
            · intro _ _ hex
              obtain ⟨h', p', pid', _, hex2, _⟩ := hex
              rw [hp] at hex2
              exact absurd hex2 (by simp)
            · exact hall b2 hb2m
          · intro hall b2 hb2m
            exact hall b2 (List.mem_cons_of_mem b hb2m)
        | some pv =>
          cases hpid : (extractBlock lines b).pod_id with
          | none =>
            rw [show SSHManager.get_host_config_go lines a (b :: bs) =
                SSHManager.get_host_config_go lines a bs by
              simp only [SSHManager.get_host_config_go, hcond, if_true, hh, hp, hpid]]
            rw [ih]
            constructor
            · intro hall b2 hb2
              rcases List.mem_cons.mp hb2 with rfl | hb2m
              · intro _ _ hex
                obtain ⟨h', p', pid', _, _, hex3, _⟩ := hex
                rw [hpid] at hex3
                exact absurd hex3 (by simp)
              · exact hall b2 hb2m
            · intro hall b2 hb2m
              exact hall b2 (List.mem_cons_of_mem b hb2m)
          | some pidv =>
            by_cases hreq : hv ≠ [] ∧ pv ≠ 0 ∧ pidv ≠ []
            · have hcontra : ¬ (∀ b2 ∈ b :: bs, b2.managed = true → a ∈ b2.hosts →
                  ¬ ∃ h p pid, (extractBlock lines b2).hostname = some h ∧
                      (extractBlock lines b2).port = some p ∧
                      (extractBlock lines b2).pod_id = some pid ∧
                      h ≠ [] ∧ p ≠ 0 ∧ pid ≠ []) := fun hall =>
                absurd ⟨hv, pv, pidv, hh, hp, hpid, hreq.1, hreq.2.1, hreq.2.2⟩
                  (hall b (List.mem_cons_self b bs) hmng hmemb)
              by_cases hpv : SSHConfig.port_valid pv = true
              · rw [show SSHManager.get_host_config_go lines a (b :: bs) =
                    GetHostResult.ret (some
                      { host_alias := a, pod_id := pidv, hostname := hv, port := pv,
                        user := (extractBlock lines b).user,
                        identity_file := (extractBlock lines b).identity_file }) by
                  simp only [SSHManager.get_host_config_go, hcond, if_true, hh, hp, hpid]
                  rw [if_pos hreq, if_pos hpv]]
                constructor
                · intro hfalse
                  exact absurd hfalse (by simp)
                · intro hall
                  exact absurd hall hcontra
              · rw [show SSHManager.get_host_config_go lines a (b :: bs) =
                    GetHostResult.validation_error by
                  simp only [SSHManager.get_host_config_go, hcond, if_true, hh, hp, hpid]
                  rw [if_pos hreq, if_neg hpv]]
                constructor
                · intro hfalse
                  exact absurd hfalse (by simp)
                · intro hall
                  exact absurd hall hcontra
            · rw [show SSHManager.get_host_config_go lines a (b :: bs) =
                  SSHManager.get_host_config_go lines a bs by
                simp only [SSHManager.get_host_config_go, hcond, if_true, hh, hp, hpid]
                rw [if_neg hreq]]
              rw [ih]
              constructor
              · intro hall b2 hb2
                rcases List.mem_cons.mp hb2 with rfl | hb2m
                · intro _ _ hex
                  obtain ⟨h', p', pid', hex1, hex2, hex3, hne1, hne2, hne3⟩ := hex
                  rw [hh] at hex1
                  rw [hp] at hex2
                  rw [hpid] at hex3
                  cases hex1
                  cases hex2
                  cases hex3
                  exact hreq ⟨hne1, hne2, hne3⟩
                · exact hall b2 hb2m
              · intro hall b2 hb2m
                exact hall b2 (List.mem_cons_of_mem b hb2m)
    · rw [show SSHManager.get_host_config_go lines a (b :: bs) =
          SSHManager.get_host_config_go lines a bs by
        simp only [SSHManager.get_host_config_go, hcond, if_false, Bool.false_eq_true]]
      rw [ih]
      constructor
      · intro hall b2 hb2
        rcases List.mem_cons.mp hb2 with rfl | hb2m
        · intro hmng hmemb
          rw [Bool.and_eq_true] at hcond
          push_neg at hcond
          exact absurd hmng (hcond (decide_eq_true hmemb))
        · exact hall b2 hb2m
      · intro hall b2 hb2m
        exact hall b2 (List.mem_cons_of_mem b hb2m)

theorem get_go_some (lines : Document) (a : List Char) : ∀ (bs : List HostBlock)
    (cfg : SSHConfig),
    SSHManager.get_host_config_go lines a bs = GetHostResult.ret (some cfg) →
    cfg.host_alias = a ∧ SSHConfig.port_valid cfg.port = true ∧
      ∃ b ∈ bs, b.managed = true ∧ a ∈ b.hosts ∧
        (extractBlock lines b).hostname = some cfg.hostname ∧
        (extractBlock lines b).port = some cfg.port ∧
        (extractBlock lines b).pod_id = some cfg.pod_id ∧
        cfg.user = (extractBlock lines b).user ∧
        cfg.identity_file = (extractBlock lines b).identity_file ∧
        cfg.hostname ≠ [] ∧ cfg.port ≠ 0 ∧ cfg.pod_id ≠ [] := by
  intro bs
  induction bs with
  | nil =>
    intro cfg h
    exact absurd h (by simp [SSHManager.get_host_config_go])
  | cons b bs ih =>
    intro cfg h
    by_cases hcond : (decide (a ∈ b.hosts) && b.managed) = true
    · have hcond2 : decide (a ∈ b.hosts) = true ∧ b.managed = true := by
        rw [Bool.and_eq_true] at hcond
        exact hcond
      have hmemb : a ∈ b.hosts := of_decide_eq_true hcond2.1
      have hmng : b.managed = true := hcond2.2
      cases hh : (extractBlock lines b).hostname with
      | none =>
        rw [show SSHManager.get_host_config_go lines a (b :: bs) =
            SSHManager.get_host_config_go lines a bs by
          simp only [SSHManager.get_host_config_go, hcond, if_true, hh]] at h
        obtain ⟨hc1, hpv, b2, hb2, hrest⟩ := ih cfg h
        exact ⟨hc1, hpv, b2, List.mem_cons_of_mem b hb2, hrest⟩
      | some hv =>
        cases hp : (extractBlock lines b).port with
        | none =>
          rw [show SSHManager.get_host_config_go lines a (b :: bs) =
              SSHManager.get_host_config_go lines a bs by
            simp only [SSHManager.get_host_config_go, hcond, if_true, hh, hp]] at h
          obtain ⟨hc1, hpv, b2, hb2, hrest⟩ := ih cfg h
          exact ⟨hc1, hpv, b2, List.mem_cons_of_mem b hb2, hrest⟩
        | some pv =>
          cases hpid : (extractBlock lines b).pod_id with
          | none =>
            rw [show SSHManager.get_host_config_go lines a (b :: bs) =
                SSHManager.get_host_config_go lines a bs by
              simp only [SSHManager.get_host_config_go, hcond, if_true, hh, hp, hpid]] at h
            obtain ⟨hc1, hpv, b2, hb2, hrest⟩ := ih cfg h
            exact ⟨hc1, hpv, b2, List.mem_cons_of_mem b hb2, hrest⟩
          | some pidv =>
            by_cases hreq : hv ≠ [] ∧ pv ≠ 0 ∧ pidv ≠ []
            · by_cases hpv : SSHConfig.port_valid pv = true
              · rw [show SSHManager.get_host_config_go lines a (b :: bs) =
                    GetHostResult.ret (some
                      { host_alias := a, pod_id := pidv, hostname := hv, port := pv,
                        user := (extractBlock lines b).user,
                        identity_file := (extractBlock lines b).identity_file }) by
                  simp only [SSHManager.get_host_config_go, hcond, if_true, hh, hp, hpid]
                  rw [if_pos hreq, if_pos hpv]] at h
                cases h
                exact ⟨rfl, hpv, b, List.mem_cons_self b bs, hmng, hmemb, hh, hp, hpid, rfl,
                  rfl, hreq.1, hreq.2.1, hreq.2.2⟩
              · rw [show SSHManager.get_host_config_go lines a (b :: bs) =
                    GetHostResult.validation_error by
                  simp only [SSHManager.get_host_config_go, hcond, if_true, hh, hp, hpid]
                  rw [if_pos hreq, if_neg hpv]] at h
                exact absurd h (by simp)
            · rw [show SSHManager.get_host_config_go lines a (b :: bs) =
                  SSHManager.get_host_config_go lines a bs by
                simp only [SSHManager.get_host_config_go, hcond, if_true, hh, hp, hpid]
                rw [if_neg hreq]] at h
              obtain ⟨hc1, hpv, b2, hb2, hrest⟩ := ih cfg h
              exact ⟨hc1, hpv, b2, List.mem_cons_of_mem b hb2, hrest⟩
    · rw [show SSHManager.get_host_config_go lines a (b :: bs) =
          SSHManager.get_host_config_go lines a bs by
        simp only [SSHManager.get_host_config_go, hcond, if_false, Bool.false_eq_true]] at h
      obtain ⟨hc1, hpv, b2, hb2, hrest⟩ := ih cfg h
      exact ⟨hc1, hpv, b2, List.mem_cons_of_mem b hb2, hrest⟩

theorem get_go_error_only_if (lines : Document) (a : List Char) : ∀ bs : List HostBlock,
    SSHManager.get_host_config_go lines a bs = GetHostResult.validation_error →
    ∃ b ∈ bs, b.managed = true ∧ a ∈ b.hosts ∧
      ∃ h p pid, (extractBlock lines b).hostname = some h ∧
        (extractBlock lines b).port = some p ∧
        (extractBlock lines b).pod_id = some pid ∧
        h ≠ [] ∧ p ≠ 0 ∧ pid ≠ [] ∧ SSHConfig.port_valid p = false := by
  intro bs
  induction bs with
  | nil =>
    intro h
    exact absurd h (by simp [SSHManager.get_host_config_go])
  | cons b bs ih =>
    intro h
    by_cases hcond : (decide (a ∈ b.hosts) && b.managed) = true
    · have hcond2 : decide (a ∈ b.hosts) = true ∧ b.managed = true := by
        rw [Bool.and_eq_true] at hcond
        exact hcond
      have hmemb : a ∈ b.hosts := of_decide_eq_true hcond2.1
      have hmng : b.managed = true := hcond2.2
      cases hh : (extractBlock lines b).hostname with
      | none =>
        rw [show SSHManager.get_host_config_go lines a (b :: bs) =
            SSHManager.get_host_config_go lines a bs by
          simp only [SSHManager.get_host_config_go, hcond, if_true, hh]] at h
        obtain ⟨b2, hb2, hrest⟩ := ih h
        exact ⟨b2, List.mem_cons_of_mem b hb2, hrest⟩
      | some hv =>
        cases hp : (extractBlock lines b).port with
        | none =>
          rw [show SSHManager.get_host_config_go lines a (b :: bs) =
              SSHManager.get_host_config_go lines a bs by
            simp only [SSHManager.get_host_config_go, hcond, if_true, hh, hp]] at h
          obtain ⟨b2, hb2, hrest⟩ := ih h
          exact ⟨b2, List.mem_cons_of_mem b hb2, hrest⟩
        | some pv =>
          cases hpid : (extractBlock lines b).pod_id with
          | none =>
            rw [show SSHManager.get_host_config_go lines a (b :: bs) =
                SSHManager.get_host_config_go lines a bs by
              simp only [SSHManager.get_host_config_go, hcond, if_true, hh, hp, hpid]] at h
            obtain ⟨b2, hb2, hrest⟩ := ih h
            exact ⟨b2, List.mem_cons_of_mem b hb2, hrest⟩
          | some pidv =>
            by_cases hreq : hv ≠ [] ∧ pv ≠ 0 ∧ pidv ≠ []
            · by_cases hpv : SSHConfig.port_valid pv = true
              · rw [show SSHManager.get_host_config_go lines a (b :: bs) =
                    GetHostResult.ret (some
                      { host_alias := a, pod_id := pidv, hostname := hv, port := pv,
                        user := (extractBlock lines b).user,
                        identity_file := (extractBlock lines b).identity_file }) by
                  simp only [SSHManager.get_host_config_go, hcond, if_true, hh, hp, hpid]
                  rw [if_pos hreq, if_pos hpv]] at h
                exact absurd h (by simp)
              · exact ⟨b, List.mem_cons_self b bs, hmng, hmemb, hv, pv, pidv, hh, hp, hpid,
                  hreq.1, hreq.2.1, hreq.2.2, by simpa using hpv⟩
            · rw [show SSHManager.get_host_config_go lines a (b :: bs) =
                  SSHManager.get_host_config_go lines a bs by
                simp only [SSHManager.get_host_config_go, hcond, if_true, hh, hp, hpid]
                rw [if_neg hreq]] at h
              obtain ⟨b2, hb2, hrest⟩ := ih h
              exact ⟨b2, List.mem_cons_of_mem b hb2, hrest⟩
    · rw [show SSHManager.get_host_config_go lines a (b :: bs) =
          SSHManager.get_host_config_go lines a bs by
        simp only [SSHManager.get_host_config_go, hcond, if_false, Bool.false_eq_true]] at h
      obtain ⟨b2, hb2, hrest⟩ := ih h
      exact ⟨b2, List.mem_cons_of_mem b hb2, hrest⟩

/-- C8: for every document and alias, `get_host_config` returns no record
— an absent result, not an error — exactly when no managed block
containing the alias yields all three required fields (HostName, truthy
integer Port, pod id from the marker line); a returned record carries
the extracted HostName, integer Port and marker pod id of a managed
matching block, its port lies in pydantic's admissible range `1..65535`,
its user defaults to `root` when the block has no `User` line, its
identity file is absent when the block has no `IdentityFile` line, and
its pod id is parsed from a marker line of the block; the uncaught
`ValidationError` occurs only when a managed matching block yields all
required fields with a port outside `1..65535`; and a block whose `Port`
values are all malformed simply ends up with no port (the lookup skips
it rather than failing). -/
theorem claim_C8 (lines : Document) (a : List Char) :
    (SSHManager.get_host_config lines a = GetHostResult.ret none ↔
      ∀ b ∈ SSHManager.parse_ssh_blocks lines, b.managed = true → a ∈ b.hosts →
        ¬ ∃ h p pid, (extractBlock lines b).hostname = some h ∧
            (extractBlock lines b).port = some p ∧
            (extractBlock lines b).pod_id = some pid ∧
            h ≠ [] ∧ p ≠ 0 ∧ pid ≠ []) ∧
    (∀ cfg, SSHManager.get_host_config lines a = GetHostResult.ret (some cfg) →
      cfg.host_alias = a ∧ SSHConfig.port_valid cfg.port = true ∧
      ∃ b ∈ SSHManager.parse_ssh_blocks lines, b.managed = true ∧ a ∈ b.hosts ∧
        (extractBlock lines b).hostname = some cfg.hostname ∧
        (extractBlock lines b).port = some cfg.port ∧
        (extractBlock lines b).pod_id = some cfg.pod_id ∧
        cfg.hostname ≠ [] ∧ cfg.port ≠ 0 ∧ cfg.pod_id ≠ [] ∧
        ((∀ l ∈ blockBody lines b, startsW ("User ".toList) (pyStrip l) = false) →
          cfg.user = ("root".toList)) ∧
        ((∀ l ∈ blockBody lines b, startsW ("IdentityFile ".toList) (pyStrip l) = false) →
          cfg.identity_file = none) ∧
        (∃ l ∈ blockBody lines b, startsW rpMarker (pyStrip l) = true ∧
          rePodId (pyStrip l) = some cfg.pod_id)) ∧
    (SSHManager.get_host_config lines a = GetHostResult.validation_error →
      ∃ b ∈ SSHManager.parse_ssh_blocks lines, b.managed = true ∧ a ∈ b.hosts ∧
        ∃ h p pid, (extractBlock lines b).hostname = some h ∧
          (extractBlock lines b).port = some p ∧
          (extractBlock lines b).pod_id = some pid ∧
          h ≠ [] ∧ p ≠ 0 ∧ pid ≠ [] ∧ SSHConfig.port_valid p = false) ∧
    (∀ b ∈ SSHManager.parse_ssh_blocks lines,
      (∀ l ∈ blockBody lines b, startsW ("Port ".toList) (pyStrip l) = true →
        pyIntParse (pyStrip ((pyStrip l).drop 5)) = none) →
      (extractBlock lines b).port = none) := by
  refine ⟨?_, ?_, ?_, ?_⟩
  · rw [SSHManager.get_host_config]
    exact get_go_none_iff lines a (SSHManager.parse_ssh_blocks lines)
  · intro cfg hsome
    rw [SSHManager.get_host_config] at hsome
    obtain ⟨hc1, hpv, b, hb, hmng, hmemb, hh, hp, hpid, huser, hident, hne1, hne2, hne3⟩ :=
      get_go_some lines a _ cfg hsome
    refine ⟨hc1, hpv, b, hb, hmng, hmemb, hh, hp, hpid, hne1, hne2, hne3, ?_, ?_, ?_⟩
    · intro hnouser
      rw [huser, extractBlock, foldl_user _ _ hnouser]
      rfl
    · intro hnoident
      rw [hident, extractBlock, foldl_identity _ _ hnoident]
      rfl
    · rw [extractBlock] at hpid
      rcases foldl_podid _ _ _ hpid with h0 | hex
      · exact absurd h0 (by simp [readInit])
      · exact hex
  · intro hve
    rw [SSHManager.get_host_config] at hve
    exact get_go_error_only_if lines a _ hve
  · intro b _ hmal
    rw [extractBlock, foldl_port _ _ hmal]
    rfl

/-- Witness for C8: a managed block whose only `Port` value is malformed
ends the extraction with no port. -/
theorem claim_C8_witness :
    (extractBlock
        [("Host x\n".toList), ("    # rp:managed alias=x pod_id=p updated=T\n".toList),
          ("    Port 8o8o\n".toList)]
        (HostBlock.mk 0 3 [("x".toList)] true 1)).port = none :=
  (claim_C8
      [("Host x\n".toList), ("    # rp:managed alias=x pod_id=p updated=T\n".toList),
        ("    Port 8o8o\n".toList)] ("x".toList)).2.2.2
    (HostBlock.mk 0 3 [("x".toList)] true 1) (by decide) (by decide)

/-! ### File round-trip lemmas (universal newlines) -/

theorem normalizeNL_cons (c : Char) (rest : List Char) (hc : c ≠ '\r') :
    normalizeNL (c :: rest) = c :: normalizeNL rest := by
  rw [normalizeNL.eq_def]
  split
  · rename_i heq
    exact absurd heq (by simp)
  · rename_i heq
    injection heq with hc1 _
    exact absurd hc1 hc
  · rename_i heq
    injection heq with hc1 _
    exact absurd hc1 hc
  · rename_i heq
    injection heq with hc1 hc2
    rw [hc1, hc2]

theorem normalizeNL_cr_cons (d : Char) (rest : List Char) (hd : d ≠ '\n') :
    normalizeNL ('\r' :: d :: rest) = '\n' :: normalizeNL (d :: rest) := by
  rw [normalizeNL.eq_def]
  split
  · rename_i heq
    exact absurd heq (by simp)
  · rename_i heq
    injection heq with _ heq2
    injection heq2 with hd1 _
    exact absurd hd1 hd
  · rename_i hcond heq
    injection heq with _ heq2
    rw [← heq2]
  · rename_i hcond hne heq
    injection heq with hc1 _
    exact absurd hc1.symm hne

theorem normalizeNL_id (s : List Char) (h : '\r' ∉ s) : normalizeNL s = s := by
  induction s with
  | nil => rfl
  | cons c cs ih =>
    rw [normalizeNL_cons c cs (fun hc => h (hc ▸ List.mem_cons_self c cs)),
      ih (fun hm => h (List.mem_cons_of_mem c hm))]

theorem getLast?_cons_eq {α : Type} (y c : α) (X : List α) (h : X.getLast? = some c) :
    (y :: X).getLast? = some c := by
  cases X with
  | nil => exact absurd h (by simp)
  | cons z zs => rw [List.getLast?_cons_cons]; exact h

/-- Universal-newlines translation removes every carriage return and
keeps a final line terminator final. -/
theorem normalizeNL_inv (n : Nat) : ∀ s : List Char, s.length ≤ n →
    '\r' ∉ normalizeNL s ∧
      (s.getLast? = some '\n' → (normalizeNL s).getLast? = some '\n') := by
  induction n with
  | zero =>
    intro s hs
    rw [List.length_eq_zero.mp (Nat.le_zero.mp hs)]
    exact ⟨by simp [normalizeNL], fun h => absurd h (by simp)⟩
  | succ n ih =>
    intro s hs
    cases s with
    | nil => exact ⟨by simp [normalizeNL], fun h => absurd h (by simp)⟩
    | cons c rest =>
      simp only [List.length_cons] at hs
      by_cases hc : c = '\r'
      · subst hc
        cases rest with
        | nil =>
          refine ⟨by decide, fun _ => by decide⟩
        | cons d rest2 =>
          by_cases hd : d = '\n'
          · subst hd
            have heq : normalizeNL ('\r' :: '\n' :: rest2) = '\n' :: normalizeNL rest2 := rfl
            simp only [List.length_cons] at hs
            have hrec := ih rest2 (by omega)
            refine ⟨?_, ?_⟩
            · rw [heq]
              intro hm
              rcases List.mem_cons.mp hm with h | h
              · exact absurd h (by decide)
              · exact hrec.1 h
            · intro hlast
              rw [heq]
              cases rest2 with
              | nil => decide
              | cons e rest3 =>
                rw [List.getLast?_cons_cons, List.getLast?_cons_cons] at hlast
                exact getLast?_cons_eq _ _ _ (hrec.2 hlast)
          · have heq := normalizeNL_cr_cons d rest2 hd
            have hrec := ih (d :: rest2) (by omega)
            refine ⟨?_, ?_⟩
            · rw [heq]
              intro hm
              rcases List.mem_cons.mp hm with h | h
              · exact absurd h (by decide)
              · exact hrec.1 h
            · intro hlast
              rw [heq]
              rw [List.getLast?_cons_cons] at hlast
              exact getLast?_cons_eq _ _ _ (hrec.2 hlast)
      · have heq := normalizeNL_cons c rest hc
        have hrec := ih rest (by omega)
        refine ⟨?_, ?_⟩
        · rw [heq]
          intro hm
          rcases List.mem_cons.mp hm with h | h
          · exact hc h.symm
          · exact hrec.1 h
        · intro hlast
          rw [heq]
          cases rest with
          | nil =>
            have : c = '\n' := by simpa using hlast
            subst this
            decide
          | cons d rest2 =>
            rw [List.getLast?_cons_cons] at hlast
            exact getLast?_cons_eq _ _ _ (hrec.2 hlast)

theorem normalizeNL_no_cr (s : List Char) : '\r' ∉ normalizeNL s :=
  (normalizeNL_inv s.length s le_rfl).1

theorem normalizeNL_last (s : List Char) (h : s.getLast? = some '\n') :
    (normalizeNL s).getLast? = some '\n' :=
  (normalizeNL_inv s.length s le_rfl).2 h

/-- Every line produced by `readlines` on carriage-return-free text
ending in a newline is a terminated well-formed line. -/
theorem splitLinesGo_all_tLine (s : List Char) : ∀ acc : List Char,
    '\r' ∉ s → '\r' ∉ acc → '\n' ∉ acc → (s = [] → acc = []) →
    (s ≠ [] → s.getLast? = some '\n') →
    ∀ l ∈ splitLinesGo acc s, tLine l := by
  induction s with
  | nil =>
    intro acc _ _ _ hacc _ l hl
    rw [hacc rfl] at hl
    simp [splitLinesGo] at hl
  | cons c cs ih =>
    intro acc hcrS hcrA hnlA _ hlast l hl
    by_cases hc : c = '\n'
    · subst hc
      rw [show splitLinesGo acc ('\n' :: cs) =
          (acc.reverse ++ ['\n']) :: splitLinesGo [] cs by simp [splitLinesGo]] at hl
      rcases List.mem_cons.mp hl with rfl | hl2
      · exact ⟨acc.reverse, rfl, by simpa using hnlA, by simpa using hcrA⟩
      · refine ih [] (fun hm => hcrS (List.mem_cons_of_mem _ hm)) (by simp) (by simp)
          (fun _ => rfl) ?_ l hl2
        intro hcs
        have hl0 := hlast (by simp)
        cases cs with
        | nil => exact absurd rfl hcs
        | cons d ds => rw [List.getLast?_cons_cons] at hl0; exact hl0
    · rw [show splitLinesGo acc (c :: cs) = splitLinesGo (c :: acc) cs by
          simp [splitLinesGo, hc]] at hl
      have hcnotcr : c ≠ '\r' := fun h => hcrS (h ▸ List.mem_cons_self c cs)
      refine ih (c :: acc) (fun hm => hcrS (List.mem_cons_of_mem _ hm)) ?_ ?_ ?_ ?_ l hl
      · intro hm
        rcases List.mem_cons.mp hm with h | h
        · exact hcnotcr h.symm
        · exact hcrA h
      · intro hm
        rcases List.mem_cons.mp hm with h | h
        · exact hc h.symm
        · exact hnlA h
      · intro hcs
        exfalso
        have hl0 := hlast (by simp)
        rw [hcs] at hl0
        simp only [List.getLast?_singleton, Option.some_inj] at hl0
        exact hc hl0
      · intro hcs
        have hl0 := hlast (by simp)
        cases cs with
        | nil => exact absurd rfl hcs
        | cons d ds => rw [List.getLast?_cons_cons] at hl0; exact hl0

/-- `readlines` consumes one terminated line at a time. -/
theorem splitLinesGo_line (m : List Char) (hm : '\n' ∉ m) : ∀ acc rest : List Char,
    splitLinesGo acc (m ++ '\n' :: rest) =
      ((acc.reverse ++ m) ++ ['\n']) :: splitLinesGo [] rest := by
  induction m with
  | nil =>
    intro acc rest
    simp [splitLinesGo]
  | cons c m2 ih =>
    intro acc rest
    have hc : c ≠ '\n' := fun h => hm (h ▸ List.mem_cons_self c m2)
    rw [List.cons_append,
      show splitLinesGo acc (c :: (m2 ++ '\n' :: rest)) =
        splitLinesGo (c :: acc) (m2 ++ '\n' :: rest) by simp [splitLinesGo, hc],
      ih (fun h => hm (List.mem_cons_of_mem c h)) (c :: acc) rest]
    simp [List.reverse_cons, List.append_assoc]

/-- Reading back the concatenation of terminated well-formed lines
reproduces exactly those lines. -/
theorem splitLinesRead_flatten (D : Document) (hD : ∀ l ∈ D, tLine l) :
    splitLinesRead D.flatten = D := by
  induction D with
  | nil => rfl
  | cons l D2 ih =>
    obtain ⟨m, rfl, hm1, _⟩ := hD l (List.mem_cons_self l D2)
    rw [List.flatten_cons, List.append_assoc, List.singleton_append, splitLinesRead,
      splitLinesGo_line m hm1 [] D2.flatten]
    simp only [List.reverse_nil, List.nil_append]
    rw [show splitLinesGo [] D2.flatten = splitLinesRead D2.flatten from rfl,
      ih (fun x hx => hD x (List.mem_cons_of_mem _ hx))]

theorem nmem_append {α : Type} {a : α} {A B : List α} (hA : a ∉ A) (hB : a ∉ B) :
    a ∉ A ++ B := fun hm => (List.mem_append.mp hm).elim hA hB

theorem tLine_nl : tLine ['\n'] := ⟨[], rfl, by simp, by simp⟩

theorem digit_char_ok (n : Nat) (h : n < 10) :
    Char.ofNat (48 + n) ≠ '\n' ∧ Char.ofNat (48 + n) ≠ '\r' := by
  interval_cases n <;> exact ⟨by decide, by decide⟩

theorem natToCharsGo_ok (fuel : Nat) : ∀ (n : Nat) (c : Char),
    c ∈ natToCharsGo fuel n → c ≠ '\n' ∧ c ≠ '\r' := by
  induction fuel with
  | zero =>
    intro n c hc
    simp [natToCharsGo] at hc
  | succ f ih =>
    intro n c hc
    simp only [natToCharsGo] at hc
    split at hc
    · rw [List.mem_singleton] at hc
      subst hc
      exact digit_char_ok n (by omega)
    · rcases List.mem_append.mp hc with h | h
      · exact ih _ _ h
      · rw [List.mem_singleton] at h
        subst h
        exact digit_char_ok (n % 10) (Nat.mod_lt _ (by norm_num))

theorem intToChars_ok (p : Int) : ∀ c ∈ intToChars p, c ≠ '\n' ∧ c ≠ '\r' := by
  intro c hc
  cases p with
  | ofNat n => exact natToCharsGo_ok _ _ _ hc
  | negSucc m =>
    rcases List.mem_cons.mp hc with rfl | h
    · exact ⟨by decide, by decide⟩
    · exact natToCharsGo_ok _ _ _ h

/-- Every line of a fresh block is a terminated well-formed line, as
long as the record's fields and the timestamp carry no newline or
carriage return. -/
theorem to_ssh_block_tLine (cfg : SSHConfig) (ts : List Char)
    (h2 : ∀ c ∈ cfg.host_alias, isPySpace c = false)
    (h3 : '\n' ∉ cfg.hostname ∧ '\r' ∉ cfg.hostname)
    (h4 : '\n' ∉ cfg.user ∧ '\r' ∉ cfg.user)
    (h5 : '\n' ∉ cfg.pod_id ∧ '\r' ∉ cfg.pod_id)
    (h6 : ∀ f, cfg.identity_file = some f → '\n' ∉ f ∧ '\r' ∉ f)
    (h7 : '\n' ∉ ts ∧ '\r' ∉ ts) :
    ∀ l ∈ cfg.to_ssh_block ts, tLine l := by
  have ha : '\n' ∉ cfg.host_alias ∧ '\r' ∉ cfg.host_alias :=
    ⟨fun hm => absurd (h2 '\n' hm) (by decide), fun hm => absurd (h2 '\r' hm) (by decide)⟩
  have hport1 : '\n' ∉ intToChars cfg.port := fun hm => (intToChars_ok _ _ hm).1 rfl
  have hport2 : '\r' ∉ intToChars cfg.port := fun hm => (intToChars_ok _ _ hm).2 rfl
  intro l hl
  rw [SSHConfig.to_ssh_block] at hl
  cases hid : cfg.identity_file with
  | none =>
    rw [hid] at hl
    simp only [List.cons_append, List.nil_append, List.mem_append, List.mem_cons,
      List.not_mem_nil, or_false, List.mem_singleton] at hl
    rcases hl with rfl | rfl | rfl | rfl | rfl | rfl
    · exact ⟨_, rfl, nmem_append (by decide) ha.1, nmem_append (by decide) ha.2⟩
    · exact ⟨_, rfl,
        nmem_append (nmem_append (nmem_append (nmem_append
          (nmem_append (by decide) ha.1) (by decide)) h5.1) (by decide)) h7.1,
        nmem_append (nmem_append (nmem_append (nmem_append
          (nmem_append (by decide) ha.2) (by decide)) h5.2) (by decide)) h7.2⟩
    · exact ⟨_, rfl, nmem_append (by decide) h3.1, nmem_append (by decide) h3.2⟩
    · exact ⟨_, rfl, nmem_append (by decide) h4.1, nmem_append (by decide) h4.2⟩
    · exact ⟨_, rfl, nmem_append (by decide) hport1, nmem_append (by decide) hport2⟩
    · exact ⟨("    ForwardAgent yes".toList), by decide, by decide, by decide⟩
  | some f =>
    rw [hid] at hl
    dsimp only at hl
    have hf2 := h6 f hid
    by_cases hf : f = []
    · rw [if_pos hf] at hl
      simp only [List.cons_append, List.nil_append, List.mem_append, List.mem_cons,
        List.not_mem_nil, or_false, List.mem_singleton] at hl
      rcases hl with rfl | rfl | rfl | rfl | rfl | rfl
      · exact ⟨_, rfl, nmem_append (by decide) ha.1, nmem_append (by decide) ha.2⟩
      · exact ⟨_, rfl,
          nmem_append (nmem_append (nmem_append (nmem_append
            (nmem_append (by decide) ha.1) (by decide)) h5.1) (by decide)) h7.1,
          nmem_append (nmem_append (nmem_append (nmem_append
            (nmem_append (by decide) ha.2) (by decide)) h5.2) (by decide)) h7.2⟩
      · exact ⟨_, rfl, nmem_append (by decide) h3.1, nmem_append (by decide) h3.2⟩
      · exact ⟨_, rfl, nmem_append (by decide) h4.1, nmem_append (by decide) h4.2⟩
      · exact ⟨_, rfl, nmem_append (by decide) hport1, nmem_append (by decide) hport2⟩
      · exact ⟨("    ForwardAgent yes".toList), by decide, by decide, by decide⟩
    · rw [if_neg hf] at hl
      simp only [List.cons_append, List.nil_append, List.mem_append, List.mem_cons,
        List.not_mem_nil, or_false, List.mem_singleton] at hl
      rcases hl with rfl | rfl | rfl | rfl | rfl | rfl | rfl | rfl
      · exact ⟨_, rfl, nmem_append (by decide) ha.1, nmem_append (by decide) ha.2⟩
      · exact ⟨_, rfl,
          nmem_append (nmem_append (nmem_append (nmem_append
            (nmem_append (by decide) ha.1) (by decide)) h5.1) (by decide)) h7.1,
          nmem_append (nmem_append (nmem_append (nmem_append
            (nmem_append (by decide) ha.2) (by decide)) h5.2) (by decide)) h7.2⟩
      · exact ⟨_, rfl, nmem_append (by decide) h3.1, nmem_append (by decide) h3.2⟩
      · exact ⟨_, rfl, nmem_append (by decide) h4.1, nmem_append (by decide) h4.2⟩
      · exact ⟨_, rfl, nmem_append (by decide) hport1, nmem_append (by decide) hport2⟩
      · exact ⟨("    IdentitiesOnly yes".toList), by decide, by decide, by decide⟩
      · exact ⟨_, rfl, nmem_append (by decide) hf2.1, nmem_append (by decide) hf2.2⟩
      · exact ⟨("    ForwardAgent yes".toList), by decide, by decide, by decide⟩

/-- Every line of a rewritten document comes from the input, from the
fresh block, or is the blank separator. -/
theorem update_lines_sub (lines : Document) (cfg : SSHConfig) (ts : List Char) :
    ∀ l ∈ SSHManager.update_host_config lines cfg ts,
      l ∈ lines ∨ l ∈ cfg.to_ssh_block ts ∨ l = ['\n'] := by
  intro l hl
  simp only [SSHManager.update_host_config] at hl
  cases hfind : (SSHManager.parse_ssh_blocks lines).find?
      (fun b => decide (cfg.host_alias ∈ b.hosts)) with
  | some b =>
    rw [hfind] at hl
    dsimp only at hl
    rcases List.mem_append.mp hl with h | h
    · rcases List.mem_append.mp h with h2 | h2
      · exact Or.inl (List.mem_of_mem_take h2)
      · exact Or.inr (Or.inl h2)
    · exact Or.inl (List.mem_of_mem_drop h)
  | none =>
    rw [hfind] at hl
    dsimp only at hl
    rcases List.mem_append.mp hl with h | h
    · cases hlast : lines.getLast? with
      | none =>
        rw [hlast] at h
        exact Or.inl h
      | some last =>
        rw [hlast] at h
        dsimp only at h
        by_cases hstrip : pyStrip last = []
        · rw [if_pos hstrip] at h
          exact Or.inl h
        · rw [if_neg hstrip] at h
          rcases List.mem_append.mp h with h2 | h2
          · exact Or.inl h2
          · exact Or.inr (Or.inr (List.mem_singleton.mp h2))
    · exact Or.inr (Or.inl h)

/-- Writing a document of terminated well-formed lines and loading it
back is the identity on the lines. -/
theorem load_write_tLine (D : Document) (hD : ∀ l ∈ D, tLine l) :
    SSHManager.load_ssh_config_lines (SSHManager.write_ssh_config_lines D) = D := by
  have hcr : '\r' ∉ D.flatten := by
    intro hm
    obtain ⟨l, hlD, hlm⟩ := List.mem_flatten.mp hm
    obtain ⟨m, rfl, _, hm2⟩ := hD l hlD
    rcases List.mem_append.mp hlm with h | h
    · exact hm2 h
    · exact absurd (List.mem_singleton.mp h) (by decide)
  simp only [SSHManager.load_ssh_config_lines, SSHManager.write_ssh_config_lines,
    normalizeNL_id _ hcr]
  exact splitLinesRead_flatten D hD

/-- Loading a file that is empty or ends in a newline yields terminated
well-formed lines only. -/
theorem load_tLine (s : List Char) (h0 : s = [] ∨ s.getLast? = some '\n') :
    ∀ l ∈ SSHManager.load_ssh_config_lines s, tLine l := by
  intro l hl
  simp only [SSHManager.load_ssh_config_lines, splitLinesRead] at hl
  refine splitLinesGo_all_tLine (normalizeNL s) [] (normalizeNL_no_cr s) (by simp) (by simp)
    (fun _ => rfl) ?_ l hl
  intro hne
  rcases h0 with rfl | hlast
  · exact absurd rfl hne
  · exact normalizeNL_last s hlast

/-- C5 counterexample: with the (pydantic-admissible) empty alias, the
freshly written block's `Host` line has zero name tokens, so the second
call appends a second copy instead of replacing: the file contents after
the first and second call differ. -/
theorem claim_C5_counterexample :
    SSHManager.update_host_config_file
        (SSHManager.update_host_config_file []
          (SSHConfig.mk [] ("p".toList) ("h".toList) 22 ("root".toList) none) ("T".toList))
        (SSHConfig.mk [] ("p".toList) ("h".toList) 22 ("root".toList) none) ("T".toList) ≠
      SSHManager.update_host_config_file []
        (SSHConfig.mk [] ("p".toList) ("h".toList) 22 ("root".toList) none) ("T".toList) := by
  decide

/-- C5 amended: for every starting file content that is empty or ends in
a line terminator, and every record whose alias is a nonempty token
without whitespace characters and whose remaining fields and the
timestamp contain neither newline nor carriage return, calling
`update_host_config` twice through the file — each call reads the
current content with universal newlines, rewrites the lines, and writes
their concatenation back — yields byte-identical file contents after the
first and after the second call. -/
theorem claim_C5_amended (s : List Char) (cfg : SSHConfig) (ts : List Char)
    (h0 : s = [] ∨ s.getLast? = some '\n')
    (h1 : cfg.host_alias ≠ [])
    (h2 : ∀ c ∈ cfg.host_alias, isPySpace c = false)
    (h3 : '\n' ∉ cfg.hostname ∧ '\r' ∉ cfg.hostname)
    (h4 : '\n' ∉ cfg.user ∧ '\r' ∉ cfg.user)
    (h5 : '\n' ∉ cfg.pod_id ∧ '\r' ∉ cfg.pod_id)
    (h6 : ∀ f, cfg.identity_file = some f → '\n' ∉ f ∧ '\r' ∉ f)
    (h7 : '\n' ∉ ts ∧ '\r' ∉ ts) :
    SSHManager.update_host_config_file (SSHManager.update_host_config_file s cfg ts) cfg ts =
      SSHManager.update_host_config_file s cfg ts := by
  have hD1 : ∀ l ∈ SSHManager.update_host_config (SSHManager.load_ssh_config_lines s) cfg ts,
      tLine l := by
    intro l hl
    rcases update_lines_sub _ cfg ts l hl with h | h | h
    · exact load_tLine s h0 l h
    · exact to_ssh_block_tLine cfg ts h2 h3 h4 h5 h6 h7 l h
    · exact h ▸ tLine_nl
  conv_lhs =>
    rw [SSHManager.update_host_config_file, SSHManager.update_host_config_file,
      load_write_tLine _ hD1,
      update_host_config_idem (SSHManager.load_ssh_config_lines s) cfg ts h1 h2]
  rw [SSHManager.update_host_config_file]

/-- Witness for the amended C5 at a concrete record and file. -/
theorem claim_C5_witness :
    SSHManager.update_host_config_file
        (SSHManager.update_host_config_file ("# top\n".toList)
          (SSHConfig.mk ("x".toList) ("p".toList) ("h".toList) 22 ("root".toList) none)
          ("T".toList))
        (SSHConfig.mk ("x".toList) ("p".toList) ("h".toList) 22 ("root".toList) none)
        ("T".toList) =
      SSHManager.update_host_config_file ("# top\n".toList)
        (SSHConfig.mk ("x".toList) ("p".toList) ("h".toList) 22 ("root".toList) none)
        ("T".toList) :=
  claim_C5_amended ("# top\n".toList)
    (SSHConfig.mk ("x".toList) ("p".toList) ("h".toList) 22 ("root".toList) none)
    ("T".toList) (by decide) (by decide) (by decide) (by decide) (by decide) (by decide)
    (fun f hf => by cases hf) (by decide)

/-- C7 counterexample: the line `Host` followed by two spaces and a
newline does open a block, and the block descriptor's hosts list is
empty — refuting the claim that every produced descriptor has at least
one host name token. -/
theorem claim_C7_counterexample :
    SSHManager.parse_ssh_blocks [("Host  \n".toList)] =
        [HostBlock.mk 0 1 [] false (-1)] ∧
      (HostBlock.mk 0 1 [] false (-1)).hosts = [] := by
  decide

/-- C7 amended: a line consisting of `Host` followed only by whitespace
opens a block exactly when at least two whitespace characters remain
after discarding the trailing newline (so `Host \n` and `Host\n` open
nothing), and the block it then produces has an empty hosts list. -/
theorem claim_C7_amended (w : List Char)
    (hspace : ∀ c ∈ w, isPySpace c = true) (hnl : '\n' ∉ w) :
    SSHManager.parse_ssh_blocks [("Host".toList) ++ w ++ ['\n']] =
      if 2 ≤ w.length then [HostBlock.mk 0 1 [] false (-1)] else [] := by
  have hline : ("Host".toList) ++ w ++ ['\n'] = 'H' :: 'o' :: 's' :: 't' :: (w ++ ['\n']) := by
    simp
  have hdw : (('H' :: 'o' :: 's' :: 't' :: (w ++ ['\n'])) : List Char).dropWhile isPySpace =
      'H' :: 'o' :: 's' :: 't' :: (w ++ ['\n']) :=
    List.dropWhile_cons_of_neg (by decide)
  have hsw : startsW hostKw ('H' :: 'o' :: 's' :: 't' :: (w ++ ['\n'])) = true := by
    rw [startsW]
    apply decide_eq_true
    rfl
  have hlast : (w ++ ['\n']).getLast? = some '\n' := List.getLast?_concat w
  have hchomp : chomp (w ++ ['\n']) = w := by
    simp only [chomp, hlast, if_pos rfl]
    exact List.dropLast_concat
  have htw : (w ++ ['\n']).takeWhile isPySpace = w ++ ['\n'] := by
    rw [List.takeWhile_eq_self_iff]
    intro x hx
    rcases List.mem_append.mp hx with h | h
    · exact hspace x h
    · simp only [List.mem_singleton] at h
      subst h
      decide
  have hmt : matchTail (w ++ ['\n']) =
      if 2 ≤ w.length then some (w.drop (w.length - 1)) else none := by
    simp only [matchTail, hchomp, htw, List.length_append, List.length_singleton]
    have hmin : min (w.length + 1) (w.length - 1) = w.length - 1 := by omega
    rw [hmin]
    by_cases hlen : 2 ≤ w.length
    · have h1 : decide (1 ≤ w.length - 1) = true := decide_eq_true (by omega)
      have h2 : (w.drop (w.length - 1)).all (fun c => c != '\n') = true := by
        rw [List.all_eq_true]
        intro x hx
        have hxw : x ∈ w := List.mem_of_mem_drop hx
        have : x ≠ '\n' := fun hEq => hnl (hEq ▸ hxw)
        simpa using this
      rw [h1, h2]
      simp [hlen]
    · have h1 : decide (1 ≤ w.length - 1) = false := decide_eq_false (by omega)
      rw [h1]
      simp [hlen]
  have hmatch : matchHostLine (("Host".toList) ++ w ++ ['\n']) =
      if 2 ≤ w.length then some (w.drop (w.length - 1)) else none := by
    rw [hline]
    simp only [matchHostLine, hdw, hsw, if_true]
    exact hmt
  rw [parse_eq_smGo]
  by_cases hlen : 2 ≤ w.length
  · have hg : matchHostLine (("Host".toList) ++ w ++ ['\n']) =
        some (w.drop (w.length - 1)) := by
      rw [hmatch, if_pos hlen]
    simp only [smGo, hg, if_pos hlen]
    have hosts_nil : pySplit (pyStrip (w.drop (w.length - 1))) = [] := by
      rw [pyStrip_all_space _ (fun c hc => hspace c (List.mem_of_mem_drop hc))]
      rfl
    simp [mkBlock, hosts_nil]
  · have hg : matchHostLine (("Host".toList) ++ w ++ ['\n']) = none := by
      rw [hmatch, if_neg hlen]
    rw [hline] at hg
    simp [smGo, hg, hlen]

/-- Witness for the amended C7: two spaces after `Host` produce a block
with an empty hosts list. -/
theorem claim_C7_witness :
    SSHManager.parse_ssh_blocks [("Host".toList) ++ [' ', ' '] ++ ['\n']] =
      (if 2 ≤ ([' ', ' '] : List Char).length then [HostBlock.mk 0 1 [] false (-1)]
       else []) :=
  claim_C7_amended [' ', ' '] (by decide) (by decide)

/-- Witness for C6: a document whose last line is non-blank gains exactly
one separator line. -/
theorem claim_C6_witness :
    SSHManager.update_host_config [("# comment".toList)]
        (SSHConfig.mk ("x".toList) ("p1".toList) ("h1".toList) 22 ("root".toList) none)
        ("T".toList) =
      [("# comment".toList)] ++ [['\n']] ++
        (SSHConfig.mk ("x".toList) ("p1".toList) ("h1".toList) 22 ("root".toList) none).to_ssh_block
          ("T".toList) :=
  (claim_C6 [("# comment".toList)]
      (SSHConfig.mk ("x".toList) ("p1".toList) ("h1".toList) 22 ("root".toList) none)
      ("T".toList) (by decide)).2.1
    ("# comment".toList) rfl (by decide)

end RP
